import Mathlib

/-!
Verification of the swagger-extractor core: a shallow embedding of the
schema-resolution / tag-extraction / generation engine
(`src/lib/swagger/*.ts`, `src/lib/formatters/toon-formatter.ts`, the schema
simplifier / deep resolver and the DTO generator), together with theorems
settling the specification claims.

JavaScript data is modelled as follows: `undefined`-able fields become
`Option`, JS objects (string-keyed records, insertion ordered) become
association lists `List (String × α)` with first-match lookup and
update-in-place-or-append assignment, JS `Set`s become insertion-ordered
duplicate-free `List String` built with `sadd`, and in-place mutation of a
set threaded through recursion (the `visited` / `processed` guards) becomes
explicit state passing.  Recursions that the source bounds with those guards
are given an explicit fuel parameter; a sufficiency theorem shows a computed
bound of fuel always suffices, which is the termination argument.
-/

namespace SwaggerExtractor

/-- JS string truthiness: `undefined` and `""` are falsy. -/
def jsTruthy : Option String → Bool
  | none => false
  | some s => s ≠ ""

/-- Split a character list on a separator character (JS
`String.prototype.split` with a one-character separator; always returns a
non-empty list). -/
def splitOnCharAux (c : Char) : List Char → List Char → List (List Char)
  | [], acc => [acc.reverse]
  | x :: xs, acc =>
    if x = c then acc.reverse :: splitOnCharAux c xs []
    else splitOnCharAux c xs (x :: acc)

def splitOnChar (c : Char) (s : List Char) : List (List Char) :=
  splitOnCharAux c s []

/-- JS `s.split("/").pop()`: last component of splitting on "/" (never
undefined, since splitting returns a non-empty list). -/
def splitSlashLast (s : String) : String :=
  String.mk ((splitOnChar '/' s.data).getLastD [])

/-- JS `s.split("/").pop() || null`: the last component, `none` when it is the
empty string (falsy). -/
def splitPop (s : String) : Option String :=
  let t := splitSlashLast s
  if t = "" then none else some t

/-- Replace the first occurrence of `pat` in `s` by `repl` (JS
`String.prototype.replace` with a plain-string pattern replaces only the
first occurrence). -/
def replaceFirstL (pat repl : List Char) : List Char → List Char
  | [] => []
  | c :: cs =>
    if pat.isPrefixOf (c :: cs) then repl ++ (c :: cs).drop pat.length
    else c :: replaceFirstL pat repl cs

def replaceFirst (s pat repl : String) : String :=
  String.mk (replaceFirstL pat.data repl.data s.data)

/-- Replace every occurrence of the character `c` in a character list by
`repl` (JS `String.prototype.replace` with a global one-character regexp). -/
def replaceAllChar (c : Char) (repl : List Char) : List Char → List Char
  | [] => []
  | x :: xs =>
    if x = c then repl ++ replaceAllChar c repl xs
    else x :: replaceAllChar c repl xs

/-- Split a character list on a (non-empty) separator string (JS
`String.prototype.split` with a multi-character separator). -/
def splitOnSubAux (sep : List Char) : List Char → List Char → List (List Char)
  | [], acc => [acc.reverse]
  | c :: cs, acc =>
    if sep ≠ [] ∧ sep.isPrefixOf (c :: cs) then
      acc.reverse :: splitOnSubAux sep ((c :: cs).drop sep.length) []
    else splitOnSubAux sep cs (c :: acc)
termination_by s _ => s.length
decreasing_by
  · simp only [List.length_drop, List.length_cons]
    have : sep.length ≥ 1 := by
      rcases sep with _ | ⟨p, ps⟩
      · simp at *
      · simp
    omega
  · simp

def splitOnSub (sep s : List Char) : List (List Char) :=
  splitOnSubAux sep s []

/-- Infix test on character lists. -/
def listIsInfix (pat : List Char) : List Char → Bool
  | [] => pat.isEmpty
  | c :: rest => pat.isPrefixOf (c :: rest) || listIsInfix pat rest

/-- JS `String.prototype.includes` (substring test). -/
def strIncludes (s pat : String) : Bool :=
  listIsInfix pat.data s.data

/-- JS `Set.prototype.add`: insertion-ordered, no duplicates. -/
def sadd (s : List String) (x : String) : List String :=
  if x ∈ s then s else s ++ [x]

/-- First-match lookup in a JS object / `Map` modelled as an association
list. -/
def jsLookup {α : Type} (m : List (String × α)) (k : String) : Option α :=
  match m.find? (fun p => p.1 == k) with
  | some p => some p.2
  | none => none

/-- JS `Object.keys`. -/
def objKeys {α : Type} (m : List (String × α)) : List String :=
  m.map Prod.fst

/-- JS `obj[k] = v`: update in place when the key exists (keeping its
position), otherwise append. -/
def objInsert {α : Type} (m : List (String × α)) (k : String) (v : α) :
    List (String × α) :=
  if m.any (fun p => p.1 == k) then
    m.map (fun p => if p.1 == k then (k, v) else p)
  else m ++ [(k, v)]

/-- JS `Object.assign(dst, src)`: fold `objInsert` over the source entries. -/
def objAssign {α : Type} (dst src : List (String × α)) : List (String × α) :=
  src.foldl (fun acc p => objInsert acc p.1 p.2) dst

/-! ## Data model (src/lib/types/swagger.ts) -/

/-- The `SchemaObject` shape: `type?`, `format?`, `$ref?`, `items?`, `properties?`,
`enum?`, `allOf?`, `oneOf?`, `anyOf?`.  Enum literals are modelled by their
textual form (the source only ever joins them into a label). -/
inductive SchemaObject : Type where
  | mk
      (type : Option String)
      (format : Option String)
      (ref : Option String)
      (items : Option SchemaObject)
      (properties : Option (List (String × SchemaObject)))
      (enum : Option (List String))
      (allOf : Option (List SchemaObject))
      (oneOf : Option (List SchemaObject))
      (anyOf : Option (List SchemaObject))
deriving Repr

def SchemaObject.type : SchemaObject → Option String
  | .mk t _ _ _ _ _ _ _ _ => t

def SchemaObject.format : SchemaObject → Option String
  | .mk _ f _ _ _ _ _ _ _ => f

def SchemaObject.ref : SchemaObject → Option String
  | .mk _ _ r _ _ _ _ _ _ => r

def SchemaObject.items : SchemaObject → Option SchemaObject
  | .mk _ _ _ it _ _ _ _ _ => it

def SchemaObject.properties : SchemaObject → Option (List (String × SchemaObject))
  | .mk _ _ _ _ pr _ _ _ _ => pr

def SchemaObject.enum : SchemaObject → Option (List String)
  | .mk _ _ _ _ _ en _ _ _ => en

def SchemaObject.allOf : SchemaObject → Option (List SchemaObject)
  | .mk _ _ _ _ _ _ ao _ _ => ao

def SchemaObject.oneOf : SchemaObject → Option (List SchemaObject)
  | .mk _ _ _ _ _ _ _ oo _ => oo

def SchemaObject.anyOf : SchemaObject → Option (List SchemaObject)
  | .mk _ _ _ _ _ _ _ _ an => an

/-- The collection of named schema definitions
(`components.schemas` / `definitions`). -/
abbrev Schemas := List (String × SchemaObject)

/-- A bare `$ref` schema node. -/
def refSchema (r : String) : SchemaObject :=
  .mk none none (some r) none none none none none none

/-- A bare object schema node with properties. -/
def propsSchema (props : List (String × SchemaObject)) : SchemaObject :=
  .mk none none none none (some props) none none none none

/-- A bare primitive schema node. -/
def typeSchema (t : String) : SchemaObject :=
  .mk (some t) none none none none none none none none

structure MediaTypeObject : Type where
  schema : Option SchemaObject
deriving Repr

structure RequestBody : Type where
  content : Option (List (String × MediaTypeObject))
  required : Option Bool
deriving Repr

structure ResponseObject : Type where
  description : Option String
  content : Option (List (String × MediaTypeObject))
deriving Repr

structure OperationObject : Type where
  tags : Option (List String)
  summary : Option String
  description : Option String
  operationId : Option String
  requestBody : Option RequestBody
  responses : Option (List (String × ResponseObject))
deriving Repr

structure SwaggerInfo : Type where
  title : String
  version : String
deriving Repr, DecidableEq

structure SwaggerDocument : Type where
  openapi : Option String
  swagger : Option String
  info : SwaggerInfo
  componentsSchemas : Option Schemas
  definitions : Option Schemas
deriving Repr

structure EndpointInfo : Type where
  path : String
  method : String
  summary : Option String
  description : Option String
  params : Option (List String)
  body : Option String
  bodyContentType : Option String
  response : Option String
deriving Repr, DecidableEq

structure TagInfo : Type where
  name : String
  total : Nat
  methods : List (String × Nat)
  paths : List EndpointInfo
deriving Repr, DecidableEq

structure ExtractionResult : Type where
  api : String
  extracted_tags : List String
  endpoints : List (String × List EndpointInfo)
  schemas : List (String × List (String × String))
deriving Repr, DecidableEq

/-- Source `getSchemas` (src/lib/swagger/parser.ts): `components.schemas` for
OpenAPI 3.x, else `definitions` for Swagger 2.x, else `{}`. -/
def getSchemas (swagger : SwaggerDocument) : Schemas :=
  match swagger.componentsSchemas with
  | some s => s
  | none =>
    match swagger.definitions with
    | some d => d
    | none => []

/-! ## Reference resolver (src/lib/swagger/schema-resolver.ts) -/

/-- Source `getSchemaRef(obj)`: the referenced name for a direct `$ref`,
`name ++ "[]"` for an array-of-reference, else `null`. -/
def getSchemaRef (obj : Option SchemaObject) : Option String :=
  match obj with
  | none => none
  | some o =>
    if jsTruthy o.ref then
      splitPop ((o.ref).getD "")
    else if jsTruthy ((o.items).bind SchemaObject.ref) then
      match splitPop (((o.items).bind SchemaObject.ref).getD "") with
      | some rn => some (rn ++ "[]")
      | none => none
    else none

/-! ## Request body extraction (src/lib/swagger/schema-resolver.ts) -/

structure RequestBodyInfo : Type where
  schema : Option String
  contentType : Option String
deriving Repr, DecidableEq

def contentTypePriority : List String :=
  ["application/json", "multipart/form-data",
   "application/x-www-form-urlencoded", "application/octet-stream", "*/*"]

/-- The priority loop of `extractRequestBodyWithType`: the first content type
of the priority list that is declared, with its media object. -/
def findByPriority (content : List (String × MediaTypeObject)) :
    List String → Option (String × MediaTypeObject)
  | [] => none
  | ct :: rest =>
    match jsLookup content ct with
    | some c => some (ct, c)
    | none => findByPriority content rest

/-- The expression `content.schema ? getSchemaRef(content.schema) : null`. -/
def mediaSchemaRef (c : MediaTypeObject) : Option String :=
  match c.schema with
  | some s => getSchemaRef (some s)
  | none => none

/-- Source `extractRequestBodyWithType(operation)`. -/
def extractRequestBodyWithType (operation : OperationObject) : RequestBodyInfo :=
  match operation.requestBody with
  | none => ⟨none, none⟩
  | some rb =>
    match rb.content with
    | none => ⟨none, none⟩
    | some content =>
      match findByPriority content contentTypePriority with
      | some (ct, c) => ⟨mediaSchemaRef c, some ct⟩
      | none =>
        match content with
        | [] => ⟨none, none⟩
        | (ct, c) :: _ => ⟨mediaSchemaRef c, some ct⟩

/-- Source `extractRequestBody(operation)`. -/
def extractRequestBody (operation : OperationObject) : Option String :=
  (extractRequestBodyWithType operation).schema

/-! ## Structural size of a schema (measure for the fuel bounds) -/

mutual

def ssize : SchemaObject → Nat
  | .mk _ _ _ it pr _ ao oo an =>
    1 + osize it + prsize pr + olsize ao + olsize oo + olsize an

def osize : Option SchemaObject → Nat
  | some s => 1 + ssize s
  | none => 0

def prsize : Option (List (String × SchemaObject)) → Nat
  | some l => 1 + psize l
  | none => 0

def psize : List (String × SchemaObject) → Nat
  | [] => 0
  | p :: rest => 1 + ssize p.2 + psize rest

def olsize : Option (List SchemaObject) → Nat
  | some l => 1 + lsize l
  | none => 0

def lsize : List SchemaObject → Nat
  | [] => 0
  | s :: rest => 1 + ssize s + lsize rest

end

/-! ## `findAllSchemaRefs` (src/lib/swagger/schema-resolver.ts)

The source walks an arbitrary JS value, checks `record.$ref` for a string
containing one of the two schema-path markers, and recurses into every child
value; over the typed model the children are `items`, the property values,
and the `allOf` / `oneOf` / `anyOf` members (scalars hold no references).
The JS `Set` accumulator is the insertion-ordered list `refs`; its final
membership does not depend on the child visiting order. -/

mutual

def findAllSchemaRefs (s : SchemaObject) (refs : List String) : List String :=
  match s with
  | .mk _ _ r it pr _ ao oo an =>
    let refs :=
      match r with
      | some rs =>
        if strIncludes rs "#/components/schemas/" || strIncludes rs "#/definitions/" then
          let refName := splitSlashLast rs
          if refName ≠ "" then sadd refs refName else refs
        else refs
      | none => refs
    let refs := findRefsInOpt it refs
    let refs := findRefsInProps pr refs
    let refs := findRefsInListOpt ao refs
    let refs := findRefsInListOpt oo refs
    findRefsInListOpt an refs

def findRefsInOpt (o : Option SchemaObject) (refs : List String) : List String :=
  match o with
  | some s => findAllSchemaRefs s refs
  | none => refs

def findRefsInProps (o : Option (List (String × SchemaObject)))
    (refs : List String) : List String :=
  match o with
  | some l => findRefsInPairs l refs
  | none => refs

def findRefsInPairs (l : List (String × SchemaObject)) (refs : List String) :
    List String :=
  match l with
  | [] => refs
  | p :: rest => findRefsInPairs rest (findAllSchemaRefs p.2 refs)

def findRefsInListOpt (o : Option (List SchemaObject)) (refs : List String) :
    List String :=
  match o with
  | some l => findRefsInList l refs
  | none => refs

def findRefsInList (l : List SchemaObject) (refs : List String) : List String :=
  match l with
  | [] => refs
  | s :: rest => findRefsInList rest (findAllSchemaRefs s refs)

end

/-! ## Shallow flattener `simplifySchema` (schema-simplifier, src/unnamed/part_004) -/

/-- JS `propDef.type || "any"`-style default (empty string is falsy). -/
def jsTypeOr (o : Option String) (d : String) : String :=
  match o with
  | some t => if t = "" then d else t
  | none => d

/-- The enum label `enum(v1, v2, …)`. -/
def enumLabel (vals : List String) : String :=
  "enum(" ++ String.intercalate ", " vals ++ ")"

/-- The basic-type label: `type || "any"`, suffixed `(<format>)` when a
format is present. -/
def basicTypeLabel (pd : SchemaObject) : String :=
  let propType := jsTypeOr pd.type "any"
  if jsTruthy pd.format then propType ++ "(" ++ (pd.format).getD "" ++ ")"
  else propType

/-- One property of the shallow flattener's property loop. -/
def simplifyProp (pd : SchemaObject) : String :=
  if jsTruthy pd.ref then
    (splitPop ((pd.ref).getD "")).getD "object"
  else if pd.type = some "array" then
    match pd.items with
    | some it =>
      if jsTruthy it.ref then splitSlashLast ((it.ref).getD "") ++ "[]"
      else jsTypeOr it.type "any" ++ "[]"
    | none => "array"
  else if (pd.enum).isSome then enumLabel ((pd.enum).getD [])
  else basicTypeLabel pd

/-- The property loop of `simplifySchema`. -/
def simplifyProps (props : List (String × SchemaObject))
    (result : List (String × String)) : List (String × String) :=
  props.foldl (fun acc p => objInsert acc p.1 (simplifyProp p.2)) result

/-- Work items of the `simplifySchema` recursion: either one schema node, or
the remainder of an `allOf` member list together with the result object built
so far.  Folding the two mutually recursive loops of the source into one
function that is structurally recursive on the fuel keeps the model
computable by the kernel. -/
inductive SimplifyWork : Type where
  | schema (d : SchemaObject)
  | allOfItems (items : List SchemaObject) (result : List (String × String))

/-- Source `simplifySchema(schemaDef, allSchemas, processed)` with explicit fuel; the
mutated `processed` set is threaded through and returned.  `none` only on fuel
exhaustion (`simplifyFuelSufficient` shows the wrapper's bound never hits
it).  One unit of fuel is consumed per schema node entered and per `allOf`
loop step. -/
def simplifySchemaF : Nat → SimplifyWork → Schemas → List String →
    Option ((List (String × String)) × List String)
  | 0, _, _, _ => none
  | fuel + 1, .schema schemaDef, allSchemas, processed =>
    match schemaDef.allOf with
    | some items => simplifySchemaF fuel (.allOfItems items []) allSchemas processed
    | none => some (simplifyProps ((schemaDef.properties).getD []) [], processed)
  | _ + 1, .allOfItems [] result, _, processed => some (result, processed)
  | fuel + 1, .allOfItems (item :: rest) result, allSchemas, processed =>
    if jsTruthy item.ref then
      let refName := splitSlashLast ((item.ref).getD "")
      if refName ≠ "" then
        match jsLookup allSchemas refName with
        | some d =>
          if refName ∉ processed then
            (simplifySchemaF fuel (.schema d) allSchemas (sadd processed refName)).bind
              fun pr =>
                simplifySchemaF fuel (.allOfItems rest (objAssign result pr.1))
                  allSchemas pr.2
          else simplifySchemaF fuel (.allOfItems rest result) allSchemas processed
        | none => simplifySchemaF fuel (.allOfItems rest result) allSchemas processed
      else simplifySchemaF fuel (.allOfItems rest result) allSchemas processed
    else
      (simplifySchemaF fuel (.schema item) allSchemas processed).bind
        fun pr =>
          simplifySchemaF fuel (.allOfItems rest (objAssign result pr.1))
            allSchemas pr.2

/-- Total weight of the not-yet-visited definitions: the fuel a traversal can
still spend on entering named definitions. -/
def schemasWeight (allSchemas : Schemas) (visited : List String) : Nat :=
  (allSchemas.map (fun p => if p.1 ∈ visited then 0 else ssize p.2 + 1)).sum

/-- Fuel bound for `simplifySchema` / `resolveObjectDeep`. -/
def guardedFuel (d : SchemaObject) (allSchemas : Schemas)
    (visited : List String) : Nat :=
  ssize d + schemasWeight allSchemas visited + 1

/-- Source `simplifySchema(schemaDef, allSchemas)` with a fresh `processed` set. -/
def simplifySchema (schemaDef : SchemaObject) (allSchemas : Schemas) :
    List (String × String) :=
  match simplifySchemaF (guardedFuel schemaDef allSchemas []) (.schema schemaDef)
      allSchemas [] with
  | some pr => pr.1
  | none => []

/-! ## Deep flattener `resolveSchemaDeep` (src/unnamed/part_004) -/

/-- The `DeepSchemaField` shape: a type label, optional nested fields (present only
when non-empty), optional array marker (the source sets it only to `true`). -/
inductive DeepSchemaField : Type where
  | mk
      (type : String)
      (fields : Option (List (String × DeepSchemaField)))
      (isArray : Option Bool)
deriving Repr

def DeepSchemaField.type : DeepSchemaField → String
  | .mk t _ _ => t

def DeepSchemaField.fields : DeepSchemaField → Option (List (String × DeepSchemaField))
  | .mk _ f _ => f

def DeepSchemaField.isArray : DeepSchemaField → Option Bool
  | .mk _ _ a => a

/-- The enum / basic-type leaf of the deep resolver's property loop. -/
def deepSimpleField (pd : SchemaObject) : DeepSchemaField :=
  if (pd.enum).isSome then .mk (enumLabel ((pd.enum).getD [])) none none
  else .mk (basicTypeLabel pd) none none

/-- Work items of the `resolveObjectDeep` recursion: a schema node, the
remainder of an `allOf` member list, or the remainder of a property list,
each with the result object built so far. -/
inductive DeepWork : Type where
  | schema (d : SchemaObject)
  | allOfItems (items : List SchemaObject) (result : List (String × DeepSchemaField))
  | propsItems (props : List (String × SchemaObject)) (result : List (String × DeepSchemaField))

/-- Source `resolveObjectDeep(schemaDef, allSchemas, visited)` with explicit fuel;
the mutated `visited` set is threaded through and returned.  `none` only on
fuel exhaustion (`resolveFuelSufficient` shows the wrapper's bound never hits
it). -/
def resolveObjectDeepF : Nat → DeepWork → Schemas → List String →
    Option ((List (String × DeepSchemaField)) × List String)
  | 0, _, _, _ => none
  | fuel + 1, .schema schemaDef, allSchemas, visited =>
    match schemaDef.allOf with
    | some items => resolveObjectDeepF fuel (.allOfItems items []) allSchemas visited
    | none =>
      resolveObjectDeepF fuel (.propsItems ((schemaDef.properties).getD []) [])
        allSchemas visited
  | _ + 1, .allOfItems [] result, _, visited => some (result, visited)
  | fuel + 1, .allOfItems (item :: rest) result, allSchemas, visited =>
    if jsTruthy item.ref then
      let refName := splitSlashLast ((item.ref).getD "")
      if refName ≠ "" then
        match jsLookup allSchemas refName with
        | some d =>
          if refName ∉ visited then
            (resolveObjectDeepF fuel (.schema d) allSchemas (sadd visited refName)).bind
              fun pr =>
                resolveObjectDeepF fuel (.allOfItems rest (objAssign result pr.1))
                  allSchemas pr.2
          else resolveObjectDeepF fuel (.allOfItems rest result) allSchemas visited
        | none => resolveObjectDeepF fuel (.allOfItems rest result) allSchemas visited
      else resolveObjectDeepF fuel (.allOfItems rest result) allSchemas visited
    else
      (resolveObjectDeepF fuel (.schema item) allSchemas visited).bind
        fun pr =>
          resolveObjectDeepF fuel (.allOfItems rest (objAssign result pr.1))
            allSchemas pr.2
  | _ + 1, .propsItems [] result, _, visited => some (result, visited)
  | fuel + 1, .propsItems ((propName, propDef) :: rest) result, allSchemas, visited =>
    if jsTruthy propDef.ref then
      let refName := (splitPop ((propDef.ref).getD "")).getD "object"
      match jsLookup allSchemas refName with
      | some d =>
        if refName ∉ visited then
          (resolveObjectDeepF fuel (.schema d) allSchemas (sadd visited refName)).bind
            fun pr =>
              resolveObjectDeepF fuel
                (.propsItems rest (objInsert result propName
                  (.mk refName (if pr.1.isEmpty then none else some pr.1) none)))
                allSchemas pr.2
        else
          resolveObjectDeepF fuel
            (.propsItems rest (objInsert result propName (.mk refName none none)))
            allSchemas visited
      | none =>
        resolveObjectDeepF fuel
          (.propsItems rest (objInsert result propName (.mk refName none none)))
          allSchemas visited
    else
      match propDef.items with
      | some it =>
        if propDef.type = some "array" then
          if jsTruthy it.ref then
            let refName := (splitPop ((it.ref).getD "")).getD "object"
            match jsLookup allSchemas refName with
            | some d =>
              if refName ∉ visited then
                (resolveObjectDeepF fuel (.schema d) allSchemas (sadd visited refName)).bind
                  fun pr =>
                    resolveObjectDeepF fuel
                      (.propsItems rest (objInsert result propName
                        (.mk (refName ++ "[]")
                          (if pr.1.isEmpty then none else some pr.1) (some true))))
                      allSchemas pr.2
              else
                resolveObjectDeepF fuel
                  (.propsItems rest (objInsert result propName
                    (.mk (refName ++ "[]") none (some true))))
                  allSchemas visited
            | none =>
              resolveObjectDeepF fuel
                (.propsItems rest (objInsert result propName
                  (.mk (refName ++ "[]") none (some true))))
                allSchemas visited
          else
            resolveObjectDeepF fuel
              (.propsItems rest (objInsert result propName
                (.mk (jsTypeOr it.type "any" ++ "[]") none (some true))))
              allSchemas visited
        else
          resolveObjectDeepF fuel
            (.propsItems rest (objInsert result propName (deepSimpleField propDef)))
            allSchemas visited
      | none =>
        resolveObjectDeepF fuel
          (.propsItems rest (objInsert result propName (deepSimpleField propDef)))
          allSchemas visited

/-- Source `resolveObjectDeep(schemaDef, allSchemas, visited)`: run the fuel version
at its sufficient bound (the `none` default branch is unreachable). -/
def resolveObjectDeep (schemaDef : SchemaObject) (allSchemas : Schemas)
    (visited : List String) : (List (String × DeepSchemaField)) × List String :=
  match resolveObjectDeepF (guardedFuel schemaDef allSchemas visited)
      (.schema schemaDef) allSchemas visited with
  | some pr => pr
  | none => ([], visited)

/-- Source `resolveSchemaDeep(schemaName, allSchemas)` with a fresh `visited` set: strip a
first `[]`, look the name up, `null` when unknown, else deep-resolve. -/
def resolveSchemaDeep (schemaName : String) (allSchemas : Schemas) :
    Option (List (String × DeepSchemaField)) :=
  let cleanName := replaceFirst schemaName "[]" ""
  match jsLookup allSchemas cleanName with
  | none => none
  | some schema => some (resolveObjectDeep schema allSchemas []).1

/-! ## Tag-scoped extractor `extractByTags` (src/lib/swagger/extractor.ts) -/

/-- Source `findAllSchemaRefs(x)` with a fresh set. -/
def refsOf (d : SchemaObject) : List String := findAllSchemaRefs d []

/-- Every reference name occurring in any definition (the universe the
closure traversal can ever push). -/
def allRefsList (allSchemas : Schemas) : List String :=
  (allSchemas.map (fun p => refsOf p.2)).flatten

def allRefsFinset (allSchemas : Schemas) : Finset String :=
  (allRefsList allSchemas).toFinset

/-- The inner loop of the transitive-closure step: for each found reference
not yet in the used set, add it to the set and record it for the work stack
(the JS `for (const ref of nestedRefs)` body).  Returns the grown used set
and the newly recorded names in push order. -/
def processRefs (used : List String) : List String → List String × List String
  | [] => (used, [])
  | r :: rs =>
    if r ∈ used then processRefs used rs
    else
      let p := processRefs (used ++ [r]) rs
      (p.1, r :: p.2)

theorem processRefs_fst (rs : List String) (used : List String) :
    (processRefs used rs).1 = used ++ (processRefs used rs).2 := by
  induction rs generalizing used with
  | nil => simp [processRefs]
  | cons r rs ih =>
    by_cases h : r ∈ used <;> simp [processRefs, h, ih]

theorem processRefs_snd_mem {rs used : List String} {x : String}
    (h : x ∈ (processRefs used rs).2) : x ∈ rs ∧ x ∉ used := by
  induction rs generalizing used with
  | nil => simp [processRefs] at h
  | cons r rs ih =>
    by_cases hr : r ∈ used
    · simp only [processRefs, if_pos hr] at h
      rcases ih h with ⟨h1, h2⟩
      exact ⟨List.mem_cons_of_mem _ h1, h2⟩
    · simp only [processRefs, if_neg hr] at h
      rcases List.mem_cons.mp h with rfl | h
      · exact ⟨List.mem_cons_self _ _, hr⟩
      · rcases ih h with ⟨h1, h2⟩
        simp only [List.mem_append, List.mem_singleton] at h2
        push_neg at h2
        exact ⟨List.mem_cons_of_mem _ h1, h2.1⟩

theorem processRefs_snd_nodup (rs : List String) (used : List String) :
    (processRefs used rs).2.Nodup := by
  induction rs generalizing used with
  | nil => simp [processRefs]
  | cons r rs ih =>
    by_cases hr : r ∈ used
    · simpa [processRefs, if_pos hr] using ih used
    · simp only [processRefs, if_neg hr]
      refine List.nodup_cons.mpr ⟨fun hmem => ?_, ih (used ++ [r])⟩
      rcases processRefs_snd_mem hmem with ⟨_, habs⟩
      simp at habs

theorem processRefs_mem_fst {rs used : List String} {x : String}
    (h : x ∈ used ∨ x ∈ rs) : x ∈ (processRefs used rs).1 := by
  induction rs generalizing used with
  | nil => simpa [processRefs] using h.resolve_right (by simp)
  | cons r rs ih =>
    by_cases hr : r ∈ used
    · simp only [processRefs, if_pos hr]
      refine ih ?_
      rcases h with h | h
      · exact Or.inl h
      · rcases List.mem_cons.mp h with rfl | h
        · exact Or.inl hr
        · exact Or.inr h
    · simp only [processRefs, if_neg hr]
      refine ih ?_
      rcases h with h | h
      · exact Or.inl (by simp [h])
      · rcases List.mem_cons.mp h with rfl | h
        · exact Or.inl (by simp)
        · exact Or.inr h

theorem jsLookup_mem {α : Type} {m : List (String × α)} {k : String} {v : α}
    (h : jsLookup m k = some v) : (k, v) ∈ m := by
  unfold jsLookup at h
  cases hf : m.find? (fun p => p.1 == k) with
  | none => rw [hf] at h; exact absurd h (by simp)
  | some pr =>
    rw [hf] at h
    have hm := List.mem_of_find?_eq_some hf
    have hp := List.find?_some hf
    rcases pr with ⟨k', v'⟩
    simp only [beq_iff_eq] at hp
    simp only [Option.some.injEq] at h
    subst hp; subst h
    exact hm

theorem refsOf_mem_allRefs {allSchemas : Schemas} {n : String}
    {d : SchemaObject} {x : String} (hl : jsLookup allSchemas n = some d)
    (hx : x ∈ refsOf d) : x ∈ allRefsList allSchemas := by
  unfold allRefsList
  refine List.mem_flatten.mpr ⟨refsOf d, ?_, hx⟩
  exact List.mem_map.mpr ⟨(n, d), jsLookup_mem hl, rfl⟩

/-- The `while (schemasToProcess.length > 0)` loop.  The JS array pushes and
pops at its tail; the model keeps that stack reversed, so push/pop happen at
the head.  Termination: each iteration either grows the used set inside the
finite universe of reference names or shortens the stack. -/
def closureLoop (allSchemas : Schemas) : List String → List String → List String
  | [], used => used
  | n :: rest, used =>
    match h : jsLookup allSchemas n with
    | none => closureLoop allSchemas rest used
    | some d =>
      let p := processRefs used (refsOf d)
      closureLoop allSchemas (p.2.reverse ++ rest) p.1
termination_by stack used => ((allRefsFinset allSchemas) \ used.toFinset).card + stack.length
decreasing_by
  · simp only [List.length_cons]
    omega
  · simp only [List.length_append, List.length_reverse, List.length_cons]
    have hfst := processRefs_fst (refsOf d) used
    have hnodup := processRefs_snd_nodup (refsOf d) used
    set new := (processRefs used (refsOf d)).2 with hnew
    have hsubF : new.toFinset ⊆ (allRefsFinset allSchemas) \ used.toFinset := by
      intro x hx
      rw [List.mem_toFinset] at hx
      rcases processRefs_snd_mem hx with ⟨h1, h2⟩
      rw [Finset.mem_sdiff, List.mem_toFinset]
      exact ⟨List.mem_toFinset.mpr (refsOf_mem_allRefs h h1), h2⟩
    have hset : (allRefsFinset allSchemas) \ (processRefs used (refsOf d)).1.toFinset
        = ((allRefsFinset allSchemas) \ used.toFinset) \ new.toFinset := by
      rw [hfst]
      ext x
      simp only [Finset.mem_sdiff, List.mem_toFinset, List.mem_append]
      tauto
    rw [hset, Finset.card_sdiff hsubF]
    have hcard : new.toFinset.card = new.length := List.toFinset_card_of_nodup hnodup
    have hle : new.toFinset.card ≤ ((allRefsFinset allSchemas) \ used.toFinset).card :=
      Finset.card_le_card hsubF
    omega

/-- The copy `endpointData` made of each endpoint (it keeps `path`, `method`,
`summary`, `params`, `body`, `response` and drops everything else). -/
def endpointData (e : EndpointInfo) : EndpointInfo :=
  { path := e.path, method := e.method, summary := e.summary,
    description := none, params := e.params, body := e.body,
    bodyContentType := none, response := e.response }

/-- Track the body / response schema names of one endpoint (truthy strings
only, with a first `[]` stripped). -/
def addEndpointSchemas (used : List String) (e : EndpointInfo) : List String :=
  let used :=
    if jsTruthy e.body then sadd used (replaceFirst ((e.body).getD "") "[]" "")
    else used
  if jsTruthy e.response then sadd used (replaceFirst ((e.response).getD "") "[]" "")
  else used

/-- One iteration of the `for (const tag of selectedTags)` loop: a tag with
no bucket is skipped; otherwise its endpoints are copied verbatim and their
body/response schema names are collected. -/
def extractTagsStep (tagsInfo : List (String × TagInfo))
    (acc : (List (String × List EndpointInfo)) × List String) (tag : String) :
    (List (String × List EndpointInfo)) × List String :=
  match jsLookup tagsInfo tag with
  | none => acc
  | some tagData =>
    (objInsert acc.1 tag (tagData.paths.map endpointData),
     tagData.paths.foldl addEndpointSchemas acc.2)

/-- Source `extractByTags(swagger, selectedTags, tagsInfo)`. -/
def extractByTags (swagger : SwaggerDocument) (selectedTags : List String)
    (tagsInfo : List (String × TagInfo)) : ExtractionResult :=
  let info := swagger.info
  let allSchemas := getSchemas swagger
  let ep_used := selectedTags.foldl (extractTagsStep tagsInfo) ([], [])
  let used := closureLoop allSchemas ep_used.2.reverse ep_used.2
  let sorted := List.mergeSort used (fun a b => decide (a ≤ b))
  let schemas := sorted.foldl
    (fun acc schemaName =>
      match jsLookup allSchemas schemaName with
      | some d => objInsert acc schemaName (simplifySchema d allSchemas)
      | none => acc) []
  { api := (if info.title = "" then "API" else info.title) ++ " v" ++
      (if info.version = "" then "1.0" else info.version),
    extracted_tags := selectedTags,
    endpoints := ep_used.1,
    schemas := schemas }

/-! ## TOON formatter (src/lib/formatters/toon-formatter.ts) -/

/-- Source `escapeValue`: double-quote (escaping inner quotes) only when the value
contains a comma, newline or colon. -/
def escapeValue (value : String) : String :=
  if value.data.contains ',' || value.data.contains '\n' || value.data.contains ':' then
    "\"" ++ String.mk (replaceAllChar '"' ['\\', '"'] value.data) ++ "\""
  else value

/-- JS `e.params?.length` truthiness. -/
def paramsTruthy (e : EndpointInfo) : Bool :=
  match e.params with
  | some l => !l.isEmpty
  | none => false

/-- The column list of one tag group: always `path`, `method`, `summary`,
then `desc` / `params` / `body` / `response` when populated by at least one
endpoint of the tag. -/
def tagFields (endpoints : List EndpointInfo) : List String :=
  let hasDesc := endpoints.any (fun e => jsTruthy e.description)
  let hasParams := endpoints.any paramsTruthy
  let hasBody := endpoints.any (fun e => jsTruthy e.body)
  let hasResponse := endpoints.any (fun e => jsTruthy e.response)
  ["path", "method", "summary"] ++ (if hasDesc then ["desc"] else [])
    ++ (if hasParams then ["params"] else []) ++ (if hasBody then ["body"] else [])
    ++ (if hasResponse then ["response"] else [])

/-- The cells of one endpoint's data row (same conditional pushes as the
column list, with empty cells for absent values). -/
def rowValues (endpoints : List EndpointInfo) (ep : EndpointInfo) : List String :=
  let hasDesc := endpoints.any (fun e => jsTruthy e.description)
  let hasParams := endpoints.any paramsTruthy
  let hasBody := endpoints.any (fun e => jsTruthy e.body)
  let hasResponse := endpoints.any (fun e => jsTruthy e.response)
  [escapeValue ep.path, ep.method, escapeValue ((ep.summary).getD "")]
    ++ (if hasDesc then [escapeValue ((ep.description).getD "")] else [])
    ++ (if hasParams then [String.intercalate ";" ((ep.params).getD [])] else [])
    ++ (if hasBody then [(ep.body).getD ""] else [])
    ++ (if hasResponse then [(ep.response).getD ""] else [])

/-- The lines of one non-empty tag group: header then one row per
endpoint. -/
def tagBlock (tag : String) (endpoints : List EndpointInfo) : List String :=
  ("  " ++ tag ++ "[" ++ toString endpoints.length ++ "]\x7b"
      ++ String.intercalate "," (tagFields endpoints) ++ "\x7d:")
    :: endpoints.map (fun ep => "    " ++ String.intercalate "," (rowValues endpoints ep))

/-- Source `toToon(data)`. -/
def toToon (data : ExtractionResult) : String :=
  let lines : List String :=
    ["api: " ++ escapeValue data.api,
     "extracted_tags[" ++ toString data.extracted_tags.length ++ "]: "
       ++ String.intercalate "," data.extracted_tags,
     "endpoints:"]
  let lines := data.endpoints.foldl
    (fun lines p => if (p.2).isEmpty then lines else lines ++ tagBlock p.1 p.2) lines
  let lines := lines ++ ["schemas:"]
  let lines := data.schemas.foldl
    (fun lines p =>
      lines ++ ("  " ++ p.1 ++ ":")
        :: p.2.map (fun f => "    " ++ f.1 ++ ": " ++ escapeValue f.2)) lines
  String.intercalate "\n" lines

/-! ## DTO generator (dto-generator, src/unnamed/part_005) -/

inductive DtoLanguage : Type where
  | typescript | csharp | dart | java | python | go | kotlin
deriving Repr, DecidableEq

def strStartsWith (s pat : String) : Bool := pat.data.isPrefixOf s.data

def strEndsWith (s pat : String) : Bool := pat.data.isSuffixOf s.data

/-- The regexp test `/^[A-Z]/.test(s)`. -/
def firstUpper (s : String) : Bool :=
  match s.data with
  | c :: _ => c.isUpper
  | [] => false

/-- JS `s.charAt(0).toUpperCase() + s.slice(1)`. -/
def capitalizeFirst (s : String) : String :=
  match s.data with
  | c :: rest => String.mk (c.toUpper :: rest)
  | [] => ""

/-- JS `\w` character class. -/
def isWordChar (c : Char) : Bool := c.isAlphanum || c = '_'

/-- The regexp match `^(\w+)\(([^)]+)\)$`: a non-empty word-character base,
an opening parenthesis, a non-empty run without closing parentheses, and a
final closing parenthesis. -/
def formatMatch (t : String) : Option (String × String) :=
  let cs := t.data
  let base := cs.takeWhile isWordChar
  if base.isEmpty then none
  else
    match cs.drop base.length with
    | '(' :: more =>
      match more.getLast? with
      | some ')' =>
        let inner := more.dropLast
        if inner.isEmpty || inner.contains ')' then none
        else some (String.mk base, String.mk inner)
      | _ => none
    | _ => none

def mapBasicType (type : String) (lang : DtoLanguage) : String :=
  match type with
  | "string" =>
    match lang with
    | .typescript => "string" | .csharp => "string" | .dart => "String"
    | .java => "String" | .python => "str" | .go => "string" | .kotlin => "String"
  | "number" =>
    match lang with
    | .typescript => "number" | .csharp => "double" | .dart => "double"
    | .java => "double" | .python => "float" | .go => "float64" | .kotlin => "Double"
  | "integer" =>
    match lang with
    | .typescript => "number" | .csharp => "int" | .dart => "int"
    | .java => "int" | .python => "int" | .go => "int" | .kotlin => "Int"
  | "boolean" =>
    match lang with
    | .typescript => "boolean" | .csharp => "bool" | .dart => "bool"
    | .java => "boolean" | .python => "bool" | .go => "bool" | .kotlin => "Boolean"
  | "object" =>
    match lang with
    | .typescript => "Record<string, unknown>"
    | .csharp => "Dictionary<string, object>"
    | .dart => "Map<String, dynamic>"
    | .java => "Map<String, Object>"
    | .python => "dict[str, Any]"
    | .go => "map[string]interface\x7b\x7d"
    | .kotlin => "Map<String, Any>"
  | "any" =>
    match lang with
    | .typescript => "unknown" | .csharp => "object" | .dart => "dynamic"
    | .java => "Object" | .python => "Any" | .go => "interface\x7b\x7d" | .kotlin => "Any"
  | _ => type

def mapFormattedType (baseType format : String) (lang : DtoLanguage) : String :=
  if format = "date-time" || format = "date" then
    match lang with
    | .typescript => "string" | .csharp => "DateTime" | .dart => "DateTime"
    | .java => "LocalDateTime" | .python => "datetime" | .go => "time.Time"
    | .kotlin => "LocalDateTime"
  else if format = "uuid" then
    match lang with
    | .typescript => "string" | .csharp => "Guid" | .dart => "String"
    | .java => "UUID" | .python => "UUID" | .go => "string" | .kotlin => "UUID"
  else if format = "int32" then mapBasicType "integer" lang
  else if format = "int64" then
    match lang with
    | .typescript => "number" | .csharp => "long" | .dart => "int"
    | .java => "long" | .python => "int" | .go => "int64" | .kotlin => "Long"
  else if format = "float" then
    match lang with
    | .typescript => "number" | .csharp => "float" | .dart => "double"
    | .java => "float" | .python => "float" | .go => "float32" | .kotlin => "Float"
  else if format = "double" then mapBasicType "number" lang
  else if format ∈ ["email", "uri", "url", "hostname", "ipv4", "ipv6", "byte",
      "binary", "password"] then
    mapBasicType "string" lang
  else mapBasicType baseType lang

/-- Source `mapType(openApiType, lang)`: arrays recurse on the element label, enums
keep/collapse, `<base>(<format>)` labels dispatch on the format,
uppercase-initial labels are kept as DTO references, the rest goes through
the basic table. -/
def mapType (openApiType : String) (lang : DtoLanguage) : String :=
  if h : strEndsWith openApiType "[]" then
    let inner := String.mk (openApiType.data.dropLast.dropLast)
    let mapped := mapType inner lang
    match lang with
    | .typescript => mapped ++ "[]"
    | .csharp => "List<" ++ mapped ++ ">"
    | .dart => "List<" ++ mapped ++ ">"
    | .java => "List<" ++ mapped ++ ">"
    | .python => "list[" ++ mapped ++ "]"
    | .go => "[]" ++ mapped
    | .kotlin => "List<" ++ mapped ++ ">"
  else if strStartsWith openApiType "enum(" then
    match lang with
    | .typescript => openApiType
    | .csharp => "string"
    | .dart => "String"
    | .java => "String"
    | .python => "str"
    | .go => "string"
    | .kotlin => "String"
  else
    match formatMatch openApiType with
    | some (baseType, format) => mapFormattedType baseType format lang
    | none =>
      if firstUpper openApiType then openApiType
      else mapBasicType openApiType lang
termination_by openApiType.data.length
decreasing_by
  rcases hd : openApiType.data with _ | ⟨c, cs⟩
  · rw [strEndsWith, hd] at h
    simp [List.isSuffixOf] at h
  · simp only [List.length_dropLast, hd, List.length_cons]
    omega

/-- Source `formatFieldName(name, lang)`. -/
def formatFieldName (name : String) (lang : DtoLanguage) : String :=
  match lang with
  | .typescript | .java | .kotlin | .dart => name
  | .csharp => capitalizeFirst name
  | .go => capitalizeFirst name
  | .python =>
    let replaced := name.data.flatMap (fun c => if c.isUpper then ['_', c] else [c])
    let lowered := replaced.map Char.toLower
    match lowered with
    | '_' :: rest => String.mk rest
    | l => String.mk l

def generateTypeScript (name : String) (fields : List (String × String)) : String :=
  let lines := fields.map (fun f =>
    if strStartsWith f.2 "enum(" then
      let values := splitOnSub (", ".data) (f.2.data.drop 5 |>.dropLast)
      let union := String.intercalate " | " (values.map (fun v => "\"" ++ String.mk v ++ "\""))
      "  " ++ f.1 ++ "?: " ++ union ++ ";"
    else "  " ++ f.1 ++ "?: " ++ mapType f.2 .typescript ++ ";")
  "export interface " ++ name ++ " \x7b\n" ++ String.intercalate "\n" lines ++ "\n\x7d"

def generateCSharp (name : String) (fields : List (String × String)) : String :=
  let lines := fields.map (fun f =>
    "    public " ++ mapType f.2 .csharp ++ "? " ++ formatFieldName f.1 .csharp
      ++ " \x7b get; set; \x7d")
  "public class " ++ name ++ "\n\x7b\n" ++ String.intercalate "\n" lines ++ "\n\x7d"

def generateDart (name : String) (fields : List (String × String)) : String :=
  let fieldLines := fields.map (fun f =>
    "  final " ++ mapType f.2 .dart ++ "? " ++ f.1 ++ ";")
  let constructorParams := String.intercalate "\n"
    (fields.map (fun f => "    this." ++ f.1 ++ ","))
  let factoryFields := String.intercalate "\n" (fields.map (fun f =>
    let mapped := mapType f.2 .dart
    if strStartsWith mapped "List<" && firstUpper (replaceFirst f.2 "[]" "") then
      let inner := replaceFirst f.2 "[]" ""
      "      " ++ f.1 ++ ": (json[\x27" ++ f.1 ++ "\x27] as List?)?.map((e) => "
        ++ inner ++ ".fromJson(e)).toList(),"
    else if firstUpper f.2 && !strEndsWith f.2 "[]" && !strStartsWith f.2 "Map" then
      "      " ++ f.1 ++ ": json[\x27" ++ f.1 ++ "\x27] != null ? " ++ f.2
        ++ ".fromJson(json[\x27" ++ f.1 ++ "\x27]) : null,"
    else "      " ++ f.1 ++ ": json[\x27" ++ f.1 ++ "\x27],"))
  let toJsonFields := String.intercalate "\n" (fields.map (fun f =>
    if strEndsWith f.2 "[]" && firstUpper (replaceFirst f.2 "[]" "") then
      "      \x27" ++ f.1 ++ "\x27: " ++ f.1 ++ "?.map((e) => e.toJson()).toList(),"
    else if firstUpper f.2 && !strEndsWith f.2 "[]" && !strStartsWith f.2 "enum" then
      "      \x27" ++ f.1 ++ "\x27: " ++ f.1 ++ "?.toJson(),"
    else "      \x27" ++ f.1 ++ "\x27: " ++ f.1 ++ ","))
  String.intercalate "\n"
    ["class " ++ name ++ " \x7b",
     String.intercalate "\n" fieldLines,
     "",
     "  " ++ name ++ "(\x7b",
     constructorParams,
     "  \x7d);",
     "",
     "  factory " ++ name ++ ".fromJson(Map<String, dynamic> json) \x7b",
     "    return " ++ name ++ "(",
     factoryFields,
     "    );",
     "  \x7d",
     "",
     "  Map<String, dynamic> toJson() \x7b",
     "    return \x7b",
     toJsonFields,
     "    \x7d;",
     "  \x7d",
     "\x7d"]

def generateJava (name : String) (fields : List (String × String)) : String :=
  let fieldLines := fields.map (fun f =>
    "    private " ++ mapType f.2 .java ++ " " ++ f.1 ++ ";")
  let methods := fields.flatMap (fun f =>
    let mapped := mapType f.2 .java
    let cap := capitalizeFirst f.1
    ["",
     "    public " ++ mapped ++ " get" ++ cap ++ "() \x7b return " ++ f.1 ++ "; \x7d",
     "    public void set" ++ cap ++ "(" ++ mapped ++ " " ++ f.1 ++ ") \x7b this."
       ++ f.1 ++ " = " ++ f.1 ++ "; \x7d"])
  String.intercalate "\n"
    ["public class " ++ name ++ " \x7b",
     String.intercalate "\n" fieldLines,
     String.intercalate "\n" methods,
     "\x7d"]

def generatePython (name : String) (fields : List (String × String)) : String :=
  let fieldLines := fields.map (fun f =>
    "    " ++ formatFieldName f.1 .python ++ ": " ++ mapType f.2 .python
      ++ " | None = None")
  String.intercalate "\n"
    (["@dataclass", "class " ++ name ++ ":"]
      ++ (if fieldLines.isEmpty then ["    pass"] else fieldLines))

def generateGo (name : String) (fields : List (String × String)) : String :=
  let fieldLines := fields.map (fun f =>
    let goName := formatFieldName f.1 .go
    let mapped := mapType f.2 .go
    let pointer :=
      if strStartsWith mapped "[]" || strStartsWith mapped "map" then mapped
      else "*" ++ mapped
    "\t" ++ goName ++ " " ++ pointer ++ " `json:\"" ++ f.1 ++ ",omitempty\"`")
  "type " ++ name ++ " struct \x7b\n" ++ String.intercalate "\n" fieldLines ++ "\n\x7d"

def generateKotlin (name : String) (fields : List (String × String)) : String :=
  let fieldLines := fields.map (fun f =>
    "    val " ++ f.1 ++ ": " ++ mapType f.2 .kotlin ++ "? = null,")
  if fieldLines.isEmpty then "data class " ++ name ++ "()"
  else "data class " ++ name ++ "(\n" ++ String.intercalate "\n" fieldLines ++ "\n)"

/-- Source `generateSchemaDto(schemaName, fields, lang)`. -/
def generateSchemaDto (schemaName : String) (fields : List (String × String))
    (lang : DtoLanguage) : String :=
  match lang with
  | .typescript => generateTypeScript schemaName fields
  | .csharp => generateCSharp schemaName fields
  | .dart => generateDart schemaName fields
  | .java => generateJava schemaName fields
  | .python => generatePython schemaName fields
  | .go => generateGo schemaName fields
  | .kotlin => generateKotlin schemaName fields

/-- The language-specific header block pushed before any DTO. -/
def headerParts (lang : DtoLanguage) : List String :=
  match lang with
  | .python =>
    ["from dataclasses import dataclass\nfrom datetime import datetime\nfrom typing import Any\nfrom uuid import UUID\n"]
  | .java =>
    ["import java.time.LocalDateTime;\nimport java.util.List;\nimport java.util.Map;\nimport java.util.UUID;\n"]
  | .go => ["import \"time\"\n"]
  | .kotlin => ["import java.time.LocalDateTime\nimport java.util.UUID\n"]
  | _ => []

/-- Source `generateDtos(schemas, schemaNames, lang)`: headers, then for each
supplied name that is defined and flattens to a non-empty field map, one
generated declaration; parts joined with blank lines. -/
def generateDtos (schemas : Schemas) (schemaNames : List String)
    (lang : DtoLanguage) : String :=
  let parts := schemaNames.foldl
    (fun acc schemaName =>
      match jsLookup schemas schemaName with
      | none => acc
      | some schemaDef =>
        let simplified := simplifySchema schemaDef schemas
        if simplified.isEmpty then acc
        else acc ++ [generateSchemaDto schemaName simplified lang])
    (headerParts lang)
  String.intercalate "\n\n" parts

/-! ## Supporting lemmas -/

theorem jsLookup_nil {α : Type} (k : String) : jsLookup ([] : List (String × α)) k = none := rfl

theorem jsLookup_cons {α : Type} (p : String × α) (rest : List (String × α)) (k : String) :
    jsLookup (p :: rest) k = if p.1 = k then some p.2 else jsLookup rest k := by
  by_cases h : p.1 = k
  · simp [jsLookup, List.find?, h]
  · have hb : (p.1 == k) = false := beq_eq_false_iff_ne.mpr h
    simp [jsLookup, List.find?, hb, h]

theorem jsLookup_isSome_iff {α : Type} (m : List (String × α)) (k : String) :
    (jsLookup m k).isSome = true ↔ k ∈ objKeys m := by
  induction m with
  | nil => simp [jsLookup_nil, objKeys]
  | cons p rest ih =>
    rw [jsLookup_cons]
    by_cases h : p.1 = k
    · simp [h, objKeys]
    · simp only [if_neg h, objKeys, List.map_cons, List.mem_cons]
      rw [ih]
      simp only [objKeys]
      constructor
      · exact Or.inr
      · rintro (rfl | hh)
        · exact absurd rfl h
        · exact hh

theorem mem_sadd {s : List String} {x y : String} :
    x ∈ sadd s y ↔ x ∈ s ∨ x = y := by
  unfold sadd
  by_cases h : y ∈ s
  · rw [if_pos h]
    constructor
    · exact Or.inl
    · rintro (hx | rfl)
      · exact hx
      · exact h
  · rw [if_neg h]
    simp

theorem subset_sadd (s : List String) (y : String) : s ⊆ sadd s y := by
  intro x hx
  exact mem_sadd.mpr (Or.inl hx)

theorem objInsert_any_iff {α : Type} (m : List (String × α)) (k : String) :
    (m.any (fun p => p.1 == k)) = true ↔ k ∈ objKeys m := by
  simp [List.any_eq_true, beq_iff_eq, objKeys, List.mem_map]

theorem objKeys_objInsert_of_mem {α : Type} {m : List (String × α)} {k : String}
    (v : α) (h : k ∈ objKeys m) : objKeys (objInsert m k v) = objKeys m := by
  unfold objInsert
  rw [if_pos ((objInsert_any_iff m k).mpr h)]
  unfold objKeys
  rw [List.map_map]
  refine List.map_congr_left ?_
  intro p _
  by_cases hp : p.1 = k
  · simp [hp]
  · simp [hp]

theorem objKeys_objInsert_of_not_mem {α : Type} {m : List (String × α)} {k : String}
    (v : α) (h : k ∉ objKeys m) : objKeys (objInsert m k v) = objKeys m ++ [k] := by
  unfold objInsert
  rw [if_neg ?hneg]
  case hneg =>
    intro hc
    exact h ((objInsert_any_iff m k).mp hc)
  simp [objKeys]

theorem mem_objKeys_objInsert {α : Type} {m : List (String × α)} {k x : String}
    {v : α} : x ∈ objKeys (objInsert m k v) ↔ x ∈ objKeys m ∨ x = k := by
  by_cases h : k ∈ objKeys m
  · rw [objKeys_objInsert_of_mem v h]
    constructor
    · exact Or.inl
    · rintro (hx | rfl)
      · exact hx
      · exact h
  · rw [objKeys_objInsert_of_not_mem v h]
    simp

/-! ## Claim theorems -/

/-- Spec-side content-type choice (modelled from the spec's words): the first
content type of the fixed priority list that is declared, else the first
declared content type. -/
def specPickContentType (declared : List String) : Option String :=
  match contentTypePriority.filter (fun ct => ct ∈ declared) with
  | [] => declared.head?
  | ct :: _ => some ct

theorem findByPriority_eq (content : List (String × MediaTypeObject))
    (pri : List String) :
    findByPriority content pri =
      match pri.filter (fun ct => (jsLookup content ct).isSome) with
      | [] => none
      | ct :: _ => (jsLookup content ct).map (fun c => (ct, c)) := by
  induction pri with
  | nil => rfl
  | cons ct rest ih =>
    cases h : jsLookup content ct with
    | some c => simp [findByPriority, h, List.filter_cons]
    | none => simp [findByPriority, h, List.filter_cons, ih]

/-- C5: for every operation with a request body, the content type is chosen
by the fixed priority `application/json > multipart/form-data >
application/x-www-form-urlencoded > application/octet-stream > */*`, falling
back to the first declared content type, and the result carries both that
content type and the resolved schema reference of the chosen content. -/
theorem C5_requestBody_content_type_priority (op : OperationObject)
    (rb : RequestBody) (content : List (String × MediaTypeObject))
    (h1 : op.requestBody = some rb) (h2 : rb.content = some content) :
    (extractRequestBodyWithType op).contentType = specPickContentType (objKeys content) ∧
    (extractRequestBodyWithType op).schema =
      (specPickContentType (objKeys content)).bind
        (fun ct => (jsLookup content ct).bind mediaSchemaRef) := by
  have hfilter : contentTypePriority.filter (fun ct => (jsLookup content ct).isSome)
      = contentTypePriority.filter (fun ct => decide (ct ∈ objKeys content)) := by
    refine List.filter_congr ?_
    intro ct _
    rw [Bool.eq_iff_iff]
    simp [jsLookup_isSome_iff]
  rcases op with ⟨tg, sm, ds, oi, orb, rs⟩
  obtain rfl : orb = some rb := h1
  rcases rb with ⟨oc, orq⟩
  obtain rfl : oc = some content := h2
  dsimp only [extractRequestBodyWithType]
  rw [findByPriority_eq, hfilter]
  unfold specPickContentType
  cases hf : contentTypePriority.filter (fun ct => decide (ct ∈ objKeys content)) with
  | cons ct rest =>
    have hmem : ct ∈ objKeys content := by
      have := List.mem_filter.mp (hf ▸ List.mem_cons_self ct rest)
      simpa using this.2
    have hsome : (jsLookup content ct).isSome = true := (jsLookup_isSome_iff _ _).mpr hmem
    cases hc : jsLookup content ct with
    | none => rw [hc] at hsome; simp at hsome
    | some c => simp [hc]
  | nil =>
    cases content with
    | nil => simp [objKeys]
    | cons p rest =>
      rcases p with ⟨ct0, c0⟩
      have hl : jsLookup ((ct0, c0) :: rest) ct0 = some c0 := by
        rw [jsLookup_cons]
        simp
      simp [objKeys, hl]

def opMultipartOnly : OperationObject :=
  { tags := none, summary := none, description := none, operationId := none,
    requestBody := some
      { content := some [("multipart/form-data",
          ⟨some (SchemaObject.mk none none (some "#/components/schemas/UploadDto")
            none none none none none none)⟩)],
        required := none },
    responses := none }

/-- Witness for C5: a body declared only under `multipart/form-data` extracts
with that content type and that content's schema reference. -/
theorem C5_requestBody_content_type_priority_witness :
    (opMultipartOnly.requestBody = some
      { content := some [("multipart/form-data",
          ⟨some (SchemaObject.mk none none (some "#/components/schemas/UploadDto")
            none none none none none none)⟩)],
        required := none }) ∧
    ((extractRequestBodyWithType opMultipartOnly).contentType =
        specPickContentType (objKeys [("multipart/form-data",
          (⟨some (SchemaObject.mk none none (some "#/components/schemas/UploadDto")
            none none none none none none)⟩ : MediaTypeObject))]) ∧
      (extractRequestBodyWithType opMultipartOnly).schema =
        (specPickContentType (objKeys [("multipart/form-data",
          (⟨some (SchemaObject.mk none none (some "#/components/schemas/UploadDto")
            none none none none none none)⟩ : MediaTypeObject))])).bind
          (fun ct => (jsLookup [("multipart/form-data",
            (⟨some (SchemaObject.mk none none (some "#/components/schemas/UploadDto")
              none none none none none none)⟩ : MediaTypeObject))] ct).bind
            mediaSchemaRef)) :=
  ⟨rfl, C5_requestBody_content_type_priority opMultipartOnly _ _ rfl rfl⟩

/-- The declaration (if any) that `generateDtos` emits for one supplied
name: skipped when the name has no definition or when its shallow flattening
is empty. -/
def dtoPart (schemas : Schemas) (lang : DtoLanguage) (schemaName : String) :
    Option String :=
  match jsLookup schemas schemaName with
  | none => none
  | some schemaDef =>
    let simplified := simplifySchema schemaDef schemas
    if simplified.isEmpty then none
    else some (generateSchemaDto schemaName simplified lang)

theorem generateDtos_foldl (schemas : Schemas) (lang : DtoLanguage) :
    ∀ (names : List String) (acc : List String),
      names.foldl
        (fun acc schemaName =>
          match jsLookup schemas schemaName with
          | none => acc
          | some schemaDef =>
            let simplified := simplifySchema schemaDef schemas
            if simplified.isEmpty then acc
            else acc ++ [generateSchemaDto schemaName simplified lang]) acc
      = acc ++ names.filterMap (dtoPart schemas lang) := by
  intro names
  induction names with
  | nil => intro acc; simp
  | cons n rest ih =>
    intro acc
    simp only [List.foldl_cons, List.filterMap_cons]
    cases h : jsLookup schemas n with
    | none => simp only [dtoPart, h]; exact ih acc
    | some d =>
      by_cases he : (simplifySchema d schemas).isEmpty
      · simp only [dtoPart, h, he, if_true]
        exact ih acc
      · simp only [dtoPart, h, if_neg he]
        rw [ih (acc ++ [generateSchemaDto n (simplifySchema d schemas) lang])]
        simp

/-- C7 (amended): the DTO generator emits, after the language header block,
exactly one type declaration for each supplied name that is defined and
whose shallow flattening is non-empty, in the caller-supplied order; names
that are undefined, or whose definitions flatten to an empty field map, are
skipped. -/
theorem C7_generateDtos_one_decl_per_defined_nonempty_name
    (schemas : Schemas) (schemaNames : List String) (lang : DtoLanguage) :
    generateDtos schemas schemaNames lang =
      String.intercalate "\n\n"
        (headerParts lang ++ schemaNames.filterMap (dtoPart schemas lang)) := by
  unfold generateDtos
  rw [generateDtos_foldl]

/-- C7 counterexample: the claim promises exactly one declaration per
supplied name, but a supplied name with no definition produces no
declaration at all — for TypeScript (no header block) the whole output is
empty. -/
theorem C7_counterexample_generateDtos_skips_names :
    generateDtos [] ["Ghost"] .typescript = "" := rfl

/-- The value a row cell carries for a given column name (statement-side
pairing of columns with cell contents). -/
def cellForField (ep : EndpointInfo) : String → String
  | "path" => escapeValue ep.path
  | "method" => ep.method
  | "summary" => escapeValue ((ep.summary).getD "")
  | "desc" => escapeValue ((ep.description).getD "")
  | "params" => String.intercalate ";" ((ep.params).getD [])
  | "body" => (ep.body).getD ""
  | "response" => (ep.response).getD ""
  | _ => ""

/-- C6 (amended): each tag group of the tabular encoding consists of one
header line and one row per endpoint of the tag; the fixed columns `path`,
`method`, `summary` are always present, while `desc`, `params`, `body` and
`response` appear exactly when populated by at least one endpoint of that
tag (column sets are tag-local); and every row carries exactly one cell per
header column, in column order, with an empty cell where the endpoint lacks
the field (in particular `response` cells default to the empty string). -/
theorem C6_toon_tag_local_columns_and_rows
    (endpoints : List EndpointInfo) (ep : EndpointInfo) (tag : String) :
    tagBlock tag endpoints =
      ("  " ++ tag ++ "[" ++ toString endpoints.length ++ "]\x7b"
          ++ String.intercalate "," (tagFields endpoints) ++ "\x7d:")
        :: endpoints.map
          (fun e => "    " ++ String.intercalate "," (rowValues endpoints e)) ∧
    rowValues endpoints ep = (tagFields endpoints).map (cellForField ep) ∧
    (("desc" ∈ tagFields endpoints) ↔
      endpoints.any (fun e => jsTruthy e.description) = true) ∧
    (("params" ∈ tagFields endpoints) ↔ endpoints.any paramsTruthy = true) ∧
    (("body" ∈ tagFields endpoints) ↔
      endpoints.any (fun e => jsTruthy e.body) = true) ∧
    (("response" ∈ tagFields endpoints) ↔
      endpoints.any (fun e => jsTruthy e.response) = true) ∧
    cellForField ep "response" = (ep.response).getD "" := by
  refine ⟨rfl, ?_, ?_, ?_, ?_, ?_, rfl⟩ <;>
    (by_cases hd : endpoints.any (fun e => jsTruthy e.description) <;>
     by_cases hp : endpoints.any paramsTruthy <;>
     by_cases hb : endpoints.any (fun e => jsTruthy e.body) <;>
     by_cases hr : endpoints.any (fun e => jsTruthy e.response) <;>
     simp [tagFields, rowValues, cellForField, hd, hp, hb, hr])

/-- C6 counterexample: a tag whose only endpoint has no summary still gets a
`summary` column, so the header does not list only fields populated by at
least one endpoint — the fixed columns are unconditional. -/
theorem C6_counterexample_summary_column_unconditional :
    toToon (ExtractionResult.mk "X" ["T"]
        [("T", [EndpointInfo.mk "/p" "GET" none none none none none none])] []) =
      "api: X\nextracted_tags[1]: T\nendpoints:\n  T[1]\x7bpath,method,summary\x7d:\n    /p,GET,\nschemas:" ∧
    (EndpointInfo.mk "/p" "GET" none none none none none none).summary = none :=
  ⟨rfl, rfl⟩

theorem jsLookup_append {α : Type} (m m' : List (String × α)) (k : String) :
    jsLookup (m ++ m') k =
      match jsLookup m k with
      | some v => some v
      | none => jsLookup m' k := by
  induction m with
  | nil => simp [jsLookup_nil]
  | cons p rest ih =>
    by_cases h : p.1 = k
    · simp [jsLookup_cons, h]
    · simp [jsLookup_cons, h, ih]

theorem jsLookup_mapUpdate {α : Type} (m : List (String × α)) {k k' : String}
    (v : α) (h : k ≠ k') :
    jsLookup (m.map (fun p => if p.1 == k then (k, v) else p)) k' = jsLookup m k' := by
  induction m with
  | nil => rfl
  | cons p rest ih =>
    by_cases hp : p.1 = k
    · have hb : (p.1 == k) = true := by simpa using hp
      simp only [List.map_cons, hb, if_true, jsLookup_cons]
      rw [if_neg h, if_neg (fun hc => h (hp ▸ hc)), ih]
    · have hb : (p.1 == k) = false := by simpa using hp
      simp only [List.map_cons, hb, Bool.false_eq_true, if_false, jsLookup_cons, ih]

theorem jsLookup_objInsert_ne {α : Type} (m : List (String × α)) {k k' : String}
    (v : α) (h : k ≠ k') : jsLookup (objInsert m k v) k' = jsLookup m k' := by
  unfold objInsert
  by_cases hk : m.any (fun p => p.1 == k)
  · rw [if_pos hk]
    exact jsLookup_mapUpdate m v h
  · rw [if_neg hk, jsLookup_append, jsLookup_cons]
    rw [if_neg h]
    cases jsLookup m k' <;> simp [jsLookup_nil]

theorem extractTagsStep_filter_missing {tagsInfo : List (String × TagInfo)}
    {tag : String} (h : jsLookup tagsInfo tag = none) :
    ∀ (sel : List String) (acc : (List (String × List EndpointInfo)) × List String),
      (sel.filter (fun t => t ≠ tag)).foldl (extractTagsStep tagsInfo) acc =
        sel.foldl (extractTagsStep tagsInfo) acc := by
  intro sel
  induction sel with
  | nil => intro acc; rfl
  | cons t rest ih =>
    intro acc
    by_cases ht : t = tag
    · subst ht
      have hstep : extractTagsStep tagsInfo acc t = acc := by
        unfold extractTagsStep
        rw [h]
      rw [List.filter_cons, if_neg (by simp), List.foldl_cons, hstep]
      exact ih acc
    · rw [List.filter_cons, if_pos (by simp [ht]), List.foldl_cons, List.foldl_cons]
      exact ih (extractTagsStep tagsInfo acc t)

theorem extractTagsStep_endpoints_no_missing_key {tagsInfo : List (String × TagInfo)}
    {tag : String} (h : jsLookup tagsInfo tag = none) :
    ∀ (sel : List String) (acc : (List (String × List EndpointInfo)) × List String),
      jsLookup acc.1 tag = none →
      jsLookup (sel.foldl (extractTagsStep tagsInfo) acc).1 tag = none := by
  intro sel
  induction sel with
  | nil => intro acc hacc; exact hacc
  | cons t rest ih =>
    intro acc hacc
    rw [List.foldl_cons]
    refine ih _ ?_
    unfold extractTagsStep
    cases hlt : jsLookup tagsInfo t with
    | none => exact hacc
    | some td =>
      have hne : t ≠ tag := by
        rintro rfl
        rw [h] at hlt
        exact absurd hlt (by simp)
      exact (jsLookup_objInsert_ne acc.1 _ hne).trans hacc

/-- C10: a selected tag with no bucket in the tag index is still listed
verbatim in `extracted_tags`, the `endpoints` mapping gets no key for it,
and it contributes nothing — the result's endpoints and schemas equal those
of the same extraction without that tag; the call is total. -/
theorem C10_missing_tag_listed_but_inert (swagger : SwaggerDocument)
    (selectedTags : List String) (tagsInfo : List (String × TagInfo))
    (tag : String) (h1 : jsLookup tagsInfo tag = none) (h2 : tag ∈ selectedTags) :
    tag ∈ (extractByTags swagger selectedTags tagsInfo).extracted_tags ∧
    jsLookup (extractByTags swagger selectedTags tagsInfo).endpoints tag = none ∧
    (extractByTags swagger selectedTags tagsInfo).endpoints =
      (extractByTags swagger (selectedTags.filter (fun t => t ≠ tag)) tagsInfo).endpoints ∧
    (extractByTags swagger selectedTags tagsInfo).schemas =
      (extractByTags swagger (selectedTags.filter (fun t => t ≠ tag)) tagsInfo).schemas := by
  have hfold := extractTagsStep_filter_missing h1 selectedTags ([], [])
  refine ⟨h2, ?_, ?_, ?_⟩
  · exact extractTagsStep_endpoints_no_missing_key h1 selectedTags ([], []) rfl
  · show (selectedTags.foldl (extractTagsStep tagsInfo) ([], [])).1 =
      ((selectedTags.filter (fun t => t ≠ tag)).foldl (extractTagsStep tagsInfo) ([], [])).1
    rw [hfold]
  · show _ = _
    unfold extractByTags
    rw [hfold]

def swaggerC10 : SwaggerDocument :=
  { openapi := some "3.0.0", swagger := none, info := ⟨"T", "1"⟩,
    componentsSchemas := none, definitions := none }

/-- Witness for C10 at a concrete document, tag selection and empty index. -/
theorem C10_missing_tag_listed_but_inert_witness :
    (jsLookup ([] : List (String × TagInfo)) "Ghost" = none) ∧
    ("Ghost" ∈ (extractByTags swaggerC10 ["Ghost"] []).extracted_tags ∧
      jsLookup (extractByTags swaggerC10 ["Ghost"] []).endpoints "Ghost" = none ∧
      (extractByTags swaggerC10 ["Ghost"] []).endpoints =
        (extractByTags swaggerC10 (["Ghost"].filter (fun t => t ≠ "Ghost")) []).endpoints ∧
      (extractByTags swaggerC10 ["Ghost"] []).schemas =
        (extractByTags swaggerC10 (["Ghost"].filter (fun t => t ≠ "Ghost")) []).schemas) :=
  ⟨rfl, C10_missing_tag_listed_but_inert swaggerC10 ["Ghost"] [] "Ghost" rfl
    (by simp)⟩

theorem schemasFold_keys_sublist (allSchemas : Schemas) :
    ∀ (l : List String) (acc : List (String × List (String × String))),
      List.Sublist
        (objKeys (l.foldl
          (fun acc schemaName =>
            match jsLookup allSchemas schemaName with
            | some d => objInsert acc schemaName (simplifySchema d allSchemas)
            | none => acc) acc))
        (objKeys acc ++ l) := by
  intro l
  induction l with
  | nil => intro acc; simp
  | cons n rest ih =>
    intro acc
    rw [List.foldl_cons]
    have hstep : List.Sublist
        (objKeys (match jsLookup allSchemas n with
          | some d => objInsert acc n (simplifySchema d allSchemas)
          | none => acc))
        (objKeys acc ++ [n]) := by
      cases h : jsLookup allSchemas n with
      | none => exact List.sublist_append_left _ _
      | some d =>
        by_cases hm : n ∈ objKeys acc
        · rw [objKeys_objInsert_of_mem _ hm]
          exact List.sublist_append_left _ _
        · rw [objKeys_objInsert_of_not_mem _ hm]
    have h3 := (ih _).trans (hstep.append_right rest)
    rw [List.append_assoc, List.singleton_append] at h3
    exact h3

theorem mergeSort_le_sorted (l : List String) :
    List.Sorted (· ≤ ·) (List.mergeSort l (fun a b => decide (a ≤ b))) := by
  have h := @List.sorted_mergeSort String (fun a b : String => decide (a ≤ b))
    (fun a b c h₁ h₂ => by
      simp only [decide_eq_true_eq] at h₁ h₂ ⊢
      exact le_trans h₁ h₂)
    (fun a b => by
      simp only [Bool.or_eq_true, decide_eq_true_eq]
      exact le_total a b) l
  refine h.imp ?_
  intro a b hab
  simpa using hab

/-- C4: extraction is deterministic — two runs on the identical document and
tag selection produce the identical result — and the key order of the
`schemas` mapping is always lexicographically sorted, independent of the
order in which the closure traversal discovered the names (the keys are a
sublist of the sorted closure list). -/
theorem C4_deterministic_lexicographic_schema_keys (swagger : SwaggerDocument)
    (selectedTags : List String) (tagsInfo : List (String × TagInfo)) :
    List.Sorted (· ≤ ·)
      (objKeys (extractByTags swagger selectedTags tagsInfo).schemas) ∧
    extractByTags swagger selectedTags tagsInfo =
      extractByTags swagger selectedTags tagsInfo := by
  refine ⟨?_, rfl⟩
  have hsub := schemasFold_keys_sublist (getSchemas swagger)
    (List.mergeSort
      (closureLoop (getSchemas swagger)
        ((selectedTags.foldl (extractTagsStep tagsInfo) ([], [])).2).reverse
        (selectedTags.foldl (extractTagsStep tagsInfo) ([], [])).2)
      (fun a b => decide (a ≤ b))) []
  simp only [objKeys, List.map_nil, List.nil_append] at hsub
  exact (mergeSort_le_sorted _).sublist hsub

/-- Transitive reachability of schema names: from a base set of names,
through the full reference walk of each defined schema. -/
inductive Reachable (allSchemas : Schemas) (base : List String) : String → Prop where
  | base {n : String} : n ∈ base → Reachable allSchemas base n
  | step {m n : String} {d : SchemaObject} : Reachable allSchemas base m →
      jsLookup allSchemas m = some d → n ∈ refsOf d → Reachable allSchemas base n

theorem closureLoop_spec (allSchemas : Schemas) (base : List String) :
    ∀ (stack used : List String),
      (∀ x ∈ stack, x ∈ used) →
      (∀ x ∈ used, Reachable allSchemas base x) →
      (∀ x ∈ base, x ∈ used) →
      (∀ m ∈ used, m ∉ stack → ∀ d, jsLookup allSchemas m = some d →
        ∀ r ∈ refsOf d, r ∈ used) →
      ∀ n, (n ∈ closureLoop allSchemas stack used ↔ Reachable allSchemas base n) := by
  intro stack used
  induction stack, used using closureLoop.induct allSchemas with
  | case1 used =>
    intro _ hreach hbase hproc n
    rw [closureLoop]
    constructor
    · exact hreach n
    · intro hr
      induction hr with
      | base h => exact hbase _ h
      | step hm hl href ihm => exact hproc _ ihm (by simp) _ hl _ href
  | case2 n rest used hnone ih =>
    intro hsu hreach hbase hproc x
    rw [closureLoop, hnone]
    refine ih ?_ hreach hbase ?_ x
    · intro y hy
      exact hsu y (List.mem_cons_of_mem _ hy)
    · intro m hm hmrest d hld r hr
      by_cases hmn : m = n
      · subst hmn
        rw [hnone] at hld
        exact absurd hld (by simp)
      · exact hproc m hm (by simp [hmn, hmrest]) d hld r hr
  | case3 n rest used d hsome p ih =>
    intro hsu hreach hbase hproc x
    rw [closureLoop, hsome]
    have hfst := processRefs_fst (refsOf d) used
    have hreach_n : Reachable allSchemas base n :=
      hreach n (hsu n (List.mem_cons_self _ _))
    refine ih ?_ ?_ ?_ ?_ x
    · -- stack' ⊆ used'
      intro y hy
      rw [List.mem_append, List.mem_reverse] at hy
      rcases hy with hy | hy
      · rw [hfst, List.mem_append]
        exact Or.inr hy
      · rw [hfst, List.mem_append]
        exact Or.inl (hsu y (List.mem_cons_of_mem _ hy))
    · -- used' all reachable
      intro y hy
      rw [hfst, List.mem_append] at hy
      rcases hy with hy | hy
      · exact hreach y hy
      · exact Reachable.step hreach_n hsome (processRefs_snd_mem hy).1
    · -- base ⊆ used'
      intro y hy
      rw [hfst, List.mem_append]
      exact Or.inl (hbase y hy)
    · -- processed invariant
      intro m hm hmstack d' hld' r hr
      rw [List.mem_append, List.mem_reverse] at hmstack
      push_neg at hmstack
      rw [hfst, List.mem_append] at hm
      rcases hm with hm | hm
      · by_cases hmn : m = n
        · subst hmn
          rw [hsome] at hld'
          have hd : d' = d := by
            have := hld'
            simp only [Option.some.injEq] at this
            exact this.symm
          subst hd
          exact processRefs_mem_fst (Or.inr hr)
        · have hnotrest : m ∉ rest := hmstack.2
          have hrefs := hproc m hm (by simp [hmn, hnotrest]) d' hld' r hr
          exact processRefs_mem_fst (Or.inl hrefs)
      · exact absurd hm hmstack.1

/-- The body / response schema names collected from the selected tags'
endpoints (the used-set before the closure loop runs). -/
def collectedSchemaNames (selectedTags : List String)
    (tagsInfo : List (String × TagInfo)) : List String :=
  (selectedTags.foldl (extractTagsStep tagsInfo) ([], [])).2

/-- One endpoint contributes `x` when `x` is its truthy body or response
reference with a first `[]` stripped. -/
def epSchemaName (e : EndpointInfo) (x : String) : Prop :=
  (jsTruthy e.body = true ∧ x = replaceFirst ((e.body).getD "") "[]" "") ∨
  (jsTruthy e.response = true ∧ x = replaceFirst ((e.response).getD "") "[]" "")

theorem mem_addEndpointSchemas {used : List String} {e : EndpointInfo} {x : String} :
    x ∈ addEndpointSchemas used e ↔ x ∈ used ∨ epSchemaName e x := by
  unfold addEndpointSchemas epSchemaName
  by_cases hb : jsTruthy e.body <;> by_cases hr : jsTruthy e.response <;>
    simp [hb, hr, mem_sadd] <;> tauto

theorem mem_foldl_addEndpointSchemas {x : String} :
    ∀ (eps : List EndpointInfo) (used : List String),
      x ∈ eps.foldl addEndpointSchemas used ↔
        x ∈ used ∨ ∃ e ∈ eps, epSchemaName e x := by
  intro eps
  induction eps with
  | nil => intro used; simp
  | cons e rest ih =>
    intro used
    rw [List.foldl_cons, ih, mem_addEndpointSchemas]
    constructor
    · rintro ((h | h) | ⟨e', he', h⟩)
      · exact Or.inl h
      · exact Or.inr ⟨e, by simp, h⟩
      · exact Or.inr ⟨e', by simp [he'], h⟩
    · rintro (h | ⟨e', he', h⟩)
      · exact Or.inl (Or.inl h)
      · rcases List.mem_cons.mp he' with rfl | he'
        · exact Or.inl (Or.inr h)
        · exact Or.inr ⟨e', he', h⟩

theorem mem_collectedSchemaNames_aux {tagsInfo : List (String × TagInfo)} {x : String} :
    ∀ (sel : List String) (acc : (List (String × List EndpointInfo)) × List String),
      x ∈ (sel.foldl (extractTagsStep tagsInfo) acc).2 ↔
        x ∈ acc.2 ∨ ∃ tag ∈ sel, ∃ td, jsLookup tagsInfo tag = some td ∧
          ∃ e ∈ td.paths, epSchemaName e x := by
  intro sel
  induction sel with
  | nil => intro acc; simp
  | cons t rest ih =>
    intro acc
    rw [List.foldl_cons]
    cases hlt : jsLookup tagsInfo t with
    | none =>
      have hstep : extractTagsStep tagsInfo acc t = acc := by
        unfold extractTagsStep; rw [hlt]
      rw [hstep, ih]
      constructor
      · rintro (h | ⟨tag, htag, td, hltd, rest'⟩)
        · exact Or.inl h
        · exact Or.inr ⟨tag, List.mem_cons_of_mem _ htag, td, hltd, rest'⟩
      · rintro (h | ⟨tag, htag, td, hltd, rest'⟩)
        · exact Or.inl h
        · rcases List.mem_cons.mp htag with rfl | htag
          · rw [hlt] at hltd
            exact absurd hltd (by simp)
          · exact Or.inr ⟨tag, htag, td, hltd, rest'⟩
    | some td =>
      have hstep : extractTagsStep tagsInfo acc t =
          (objInsert acc.1 t (td.paths.map endpointData),
           td.paths.foldl addEndpointSchemas acc.2) := by
        unfold extractTagsStep; rw [hlt]
      rw [hstep, ih]
      simp only [mem_foldl_addEndpointSchemas]
      constructor
      · rintro ((h | ⟨e, he, hx⟩) | ⟨tag, htag, td', hltd, rest'⟩)
        · exact Or.inl h
        · exact Or.inr ⟨t, by simp, td, hlt, e, he, hx⟩
        · exact Or.inr ⟨tag, List.mem_cons_of_mem _ htag, td', hltd, rest'⟩
      · rintro (h | ⟨tag, htag, td', hltd, rest'⟩)
        · exact Or.inl (Or.inl h)
        · rcases List.mem_cons.mp htag with rfl | htag
          · rw [hlt] at hltd
            rcases rest' with ⟨e, he, hx⟩
            have : td' = td := by
              simp only [Option.some.injEq] at hltd
              exact hltd.symm
            subst this
            exact Or.inl (Or.inr ⟨e, he, hx⟩)
          · exact Or.inr ⟨tag, htag, td', hltd, rest'⟩

theorem schemasFold_keys_mem (allSchemas : Schemas) {n : String} :
    ∀ (l : List String) (acc : List (String × List (String × String))),
      n ∈ objKeys (l.foldl
        (fun acc schemaName =>
          match jsLookup allSchemas schemaName with
          | some d => objInsert acc schemaName (simplifySchema d allSchemas)
          | none => acc) acc) ↔
        n ∈ objKeys acc ∨ (n ∈ l ∧ (jsLookup allSchemas n).isSome = true) := by
  intro l
  induction l with
  | nil => intro acc; simp
  | cons m rest ih =>
    intro acc
    rw [List.foldl_cons, ih]
    cases hm : jsLookup allSchemas m with
    | none =>
      constructor
      · rintro (h | ⟨h1, h2⟩)
        · exact Or.inl h
        · exact Or.inr ⟨List.mem_cons_of_mem _ h1, h2⟩
      · rintro (h | ⟨h1, h2⟩)
        · exact Or.inl h
        · rcases List.mem_cons.mp h1 with rfl | h1
          · rw [hm] at h2
            exact absurd h2 (by simp)
          · exact Or.inr ⟨h1, h2⟩
    | some d =>
      rw [show objKeys (objInsert acc m (simplifySchema d allSchemas)) =
          objKeys (objInsert acc m (simplifySchema d allSchemas)) from rfl]
      constructor
      · rintro (h | ⟨h1, h2⟩)
        · rcases mem_objKeys_objInsert.mp h with h | rfl
          · exact Or.inl h
          · exact Or.inr ⟨by simp, by simp [hm]⟩
        · exact Or.inr ⟨List.mem_cons_of_mem _ h1, h2⟩
      · rintro (h | ⟨h1, h2⟩)
        · exact Or.inl (mem_objKeys_objInsert.mpr (Or.inl h))
        · rcases List.mem_cons.mp h1 with rfl | h1
          · exact Or.inl (mem_objKeys_objInsert.mpr (Or.inr rfl))
          · exact Or.inr ⟨h1, h2⟩

/-- C1: the `schemas` mapping of an extraction contains exactly the defined
schema names transitively reachable via the body and response references of
the selected endpoints (with a trailing `[]` stripped): a name is a key iff
it is reachable and has a definition; and the base of that reachability is
precisely the set of truthy body/response names collected from the selected
tags. -/
theorem C1_schema_closure_exact (swagger : SwaggerDocument)
    (selectedTags : List String) (tagsInfo : List (String × TagInfo)) :
    (∀ n, n ∈ objKeys (extractByTags swagger selectedTags tagsInfo).schemas ↔
      (Reachable (getSchemas swagger) (collectedSchemaNames selectedTags tagsInfo) n ∧
        (jsLookup (getSchemas swagger) n).isSome = true)) ∧
    (∀ x, x ∈ collectedSchemaNames selectedTags tagsInfo ↔
      ∃ tag ∈ selectedTags, ∃ td, jsLookup tagsInfo tag = some td ∧
        ∃ e ∈ td.paths, epSchemaName e x) := by
  constructor
  · intro n
    set allSchemas := getSchemas swagger with hall
    set base := collectedSchemaNames selectedTags tagsInfo with hbase
    have hkeys : n ∈ objKeys (extractByTags swagger selectedTags tagsInfo).schemas ↔
        n ∈ objKeys ([] : List (String × List (String × String))) ∨
          (n ∈ List.mergeSort (closureLoop allSchemas base.reverse base)
              (fun a b => decide (a ≤ b)) ∧
            (jsLookup allSchemas n).isSome = true) :=
      schemasFold_keys_mem allSchemas _ []
    rw [hkeys]
    simp only [objKeys, List.map_nil, List.not_mem_nil, false_or, List.mem_mergeSort]
    have hloop := closureLoop_spec allSchemas base base.reverse base
      (fun x hx => List.mem_reverse.mp hx)
      (fun x hx => Reachable.base hx)
      (fun x hx => hx)
      (fun m hm hnot => absurd (List.mem_reverse.mpr hm) hnot)
      n
    rw [hloop]
  · intro x
    unfold collectedSchemaNames
    rw [mem_collectedSchemaNames_aux selectedTags ([], [])]
    simp

theorem schemasWeight_mono {all : Schemas} {vis vis' : List String}
    (h : ∀ x ∈ vis, x ∈ vis') :
    schemasWeight all vis' ≤ schemasWeight all vis := by
  unfold schemasWeight
  induction all with
  | nil => simp
  | cons p rest ih =>
    simp only [List.map_cons, List.sum_cons]
    have hterm : (if p.1 ∈ vis' then 0 else ssize p.2 + 1) ≤
        (if p.1 ∈ vis then 0 else ssize p.2 + 1) := by
      by_cases hp : p.1 ∈ vis
      · simp [hp, h p.1 hp]
      · by_cases hp' : p.1 ∈ vis' <;> simp [hp, hp']
    omega

theorem schemasWeight_drop {all : Schemas} {n : String} {d : SchemaObject}
    {vis : List String} (h : jsLookup all n = some d) (hn : n ∉ vis) :
    ssize d + 1 + schemasWeight all (sadd vis n) ≤ schemasWeight all vis := by
  induction all with
  | nil => rw [jsLookup_nil] at h; exact absurd h (by simp)
  | cons p rest ih =>
    rw [jsLookup_cons] at h
    unfold schemasWeight
    simp only [List.map_cons, List.sum_cons]
    by_cases hp : p.1 = n
    · rw [if_pos hp] at h
      have hd : p.2 = d := by simpa using h
      subst hd
      have h1 : (if p.1 ∈ vis then 0 else ssize p.2 + 1) = ssize p.2 + 1 := by
        rw [if_neg (hp ▸ hn)]
      have h2 : (if p.1 ∈ sadd vis n then 0 else ssize p.2 + 1) = 0 := by
        rw [if_pos (mem_sadd.mpr (Or.inr hp))]
      have h3 := @schemasWeight_mono rest vis (sadd vis n) (subset_sadd vis n)
      unfold schemasWeight at h3
      omega
    · rw [if_neg hp] at h
      have hterm : (if p.1 ∈ sadd vis n then 0 else ssize p.2 + 1) =
          (if p.1 ∈ vis then 0 else ssize p.2 + 1) := by
        by_cases hv : p.1 ∈ vis
        · rw [if_pos hv, if_pos (mem_sadd.mpr (Or.inl hv))]
        · rw [if_neg hv, if_neg (fun hc => by
            rcases mem_sadd.mp hc with hc | hc
            · exact hv hc
            · exact hp hc)]
      have := ih h
      unfold schemasWeight at this
      omega

theorem ssize_mk (t f r : Option String) (it : Option SchemaObject)
    (pr : Option (List (String × SchemaObject))) (en : Option (List String))
    (ao oo an : Option (List SchemaObject)) :
    ssize (.mk t f r it pr en ao oo an) =
      1 + osize it + prsize pr + olsize ao + olsize oo + olsize an := rfl

theorem ssize_allOf {d : SchemaObject} {items : List SchemaObject}
    (h : d.allOf = some items) : lsize items + 2 ≤ ssize d := by
  rcases d with ⟨t, f, r, it, pr, en, ao, oo, an⟩
  simp only [SchemaObject.allOf] at h
  subst h
  rw [ssize_mk]
  have : olsize (some items) = 1 + lsize items := rfl
  omega

theorem ssize_props (d : SchemaObject) :
    psize ((d.properties).getD []) + 1 ≤ ssize d := by
  rcases d with ⟨t, f, r, it, pr, en, ao, oo, an⟩
  simp only [SchemaObject.properties]
  rw [ssize_mk]
  cases pr with
  | none => simp only [Option.getD, psize, prsize]; omega
  | some l =>
    have : prsize (some l) = 1 + psize l := rfl
    simp only [Option.getD]
    omega


/-- Measure of remaining deep-resolution work: the structural size of the
current work item plus the weight of the not-yet-visited definitions. -/
def deepWorkMeasure (w : DeepWork) (all : Schemas) (vis : List String) : Nat :=
  match w with
  | .schema d => ssize d + schemasWeight all vis
  | .allOfItems items _ => lsize items + schemasWeight all vis
  | .propsItems props _ => psize props + schemasWeight all vis

/-- Fuel sufficiency for the deep resolver: any fuel above the measure
completes (and the visited set only grows, so the pending weight only
shrinks).  This is the termination argument for `resolveObjectDeep`. -/
theorem resolveObjectDeepF_suff (all : Schemas) :
    ∀ (fuel : Nat) (w : DeepWork) (vis : List String),
      deepWorkMeasure w all vis < fuel →
      ∃ r vis2, resolveObjectDeepF fuel w all vis = some (r, vis2) ∧
        schemasWeight all vis2 ≤ schemasWeight all vis := by
  intro fuel
  induction fuel with
  | zero => intro w vis h; exact absurd h (by omega)
  | succ f ih =>
    intro w vis hμ
    cases w with
    | schema d =>
      simp only [deepWorkMeasure] at hμ
      cases hao : d.allOf with
      | some items =>
        have hs := ssize_allOf hao
        obtain ⟨r, v2, heq, hS⟩ := ih (.allOfItems items []) vis
          (by simp only [deepWorkMeasure]; omega)
        exact ⟨r, v2, by rw [resolveObjectDeepF, hao]; exact heq, hS⟩
      | none =>
        have hs := ssize_props d
        obtain ⟨r, v2, heq, hS⟩ := ih (.propsItems ((d.properties).getD []) []) vis
          (by simp only [deepWorkMeasure]; omega)
        exact ⟨r, v2, by rw [resolveObjectDeepF, hao]; exact heq, hS⟩
    | allOfItems items acc =>
      cases items with
      | nil => exact ⟨acc, vis, rfl, le_refl _⟩
      | cons item rest =>
        simp only [deepWorkMeasure] at hμ
        have hlc : lsize (item :: rest) = 1 + ssize item + lsize rest := rfl
        by_cases h1 : jsTruthy item.ref = true
        · by_cases h2 : splitSlashLast ((item.ref).getD "") ≠ ""
          · cases hl : jsLookup all (splitSlashLast ((item.ref).getD "")) with
            | some d' =>
              by_cases h3 : splitSlashLast ((item.ref).getD "") ∉ vis
              · have hdrop := schemasWeight_drop hl h3
                obtain ⟨r1, v1, heq1, hS1⟩ := ih (.schema d')
                  (sadd vis (splitSlashLast ((item.ref).getD "")))
                  (by simp only [deepWorkMeasure]; omega)
                obtain ⟨r2, v2, heq2, hS2⟩ := ih (.allOfItems rest (objAssign acc r1)) v1
                  (by simp only [deepWorkMeasure]; omega)
                refine ⟨r2, v2, ?_, ?_⟩
                · rw [resolveObjectDeepF]
                  simp only [h1, if_true, if_pos h2, hl, if_pos h3, heq1,
                    Option.some_bind, heq2]
                · omega
              · obtain ⟨r2, v2, heq2, hS2⟩ := ih (.allOfItems rest acc) vis
                  (by simp only [deepWorkMeasure]; omega)
                refine ⟨r2, v2, ?_, hS2⟩
                rw [resolveObjectDeepF]
                simp only [h1, if_true, if_pos h2, hl, if_neg h3, heq2, Bool.false_eq_true, if_false]
            | none =>
              obtain ⟨r2, v2, heq2, hS2⟩ := ih (.allOfItems rest acc) vis
                (by simp only [deepWorkMeasure]; omega)
              refine ⟨r2, v2, ?_, hS2⟩
              rw [resolveObjectDeepF]
              simp only [h1, if_true, if_pos h2, hl, heq2, Bool.false_eq_true, if_false]
          · obtain ⟨r2, v2, heq2, hS2⟩ := ih (.allOfItems rest acc) vis
              (by simp only [deepWorkMeasure]; omega)
            refine ⟨r2, v2, ?_, hS2⟩
            rw [resolveObjectDeepF]
            simp only [h1, if_true, if_neg h2, heq2, Bool.false_eq_true, if_false]
        · obtain ⟨r1, v1, heq1, hS1⟩ := ih (.schema item) vis
            (by simp only [deepWorkMeasure]; omega)
          obtain ⟨r2, v2, heq2, hS2⟩ := ih (.allOfItems rest (objAssign acc r1)) v1
            (by simp only [deepWorkMeasure]; omega)
          refine ⟨r2, v2, ?_, by omega⟩
          rw [resolveObjectDeepF]
          simp only [if_neg h1, heq1, Option.some_bind, heq2, Bool.false_eq_true, if_false]
    | propsItems props acc =>
      cases props with
      | nil => exact ⟨acc, vis, rfl, le_refl _⟩
      | cons prop rest =>
        rcases prop with ⟨propName, propDef⟩
        simp only [deepWorkMeasure] at hμ
        have hpc : psize ((propName, propDef) :: rest) =
            1 + ssize propDef + psize rest := rfl
        by_cases h1 : jsTruthy propDef.ref = true
        · cases hl : jsLookup all ((splitPop ((propDef.ref).getD "")).getD "object") with
          | some d' =>
            by_cases h3 : (splitPop ((propDef.ref).getD "")).getD "object" ∉ vis
            · have hdrop := schemasWeight_drop hl h3
              obtain ⟨r1, v1, heq1, hS1⟩ := ih (.schema d')
                (sadd vis ((splitPop ((propDef.ref).getD "")).getD "object"))
                (by simp only [deepWorkMeasure]; omega)
              obtain ⟨r2, v2, heq2, hS2⟩ := ih (.propsItems rest
                (objInsert acc propName (.mk ((splitPop ((propDef.ref).getD "")).getD "object")
                  (if r1.isEmpty then none else some r1) none))) v1
                (by simp only [deepWorkMeasure]; omega)
              refine ⟨r2, v2, ?_, by omega⟩
              rw [resolveObjectDeepF]
              simp only [h1, if_true, hl, if_pos h3, heq1, Option.some_bind, heq2, Bool.false_eq_true, if_false]
            · obtain ⟨r2, v2, heq2, hS2⟩ := ih (.propsItems rest
                (objInsert acc propName (.mk ((splitPop ((propDef.ref).getD "")).getD "object")
                  none none))) vis
                (by simp only [deepWorkMeasure]; omega)
              refine ⟨r2, v2, ?_, hS2⟩
              rw [resolveObjectDeepF]
              simp only [h1, if_true, hl, if_neg h3, heq2, Bool.false_eq_true, if_false]
          | none =>
            obtain ⟨r2, v2, heq2, hS2⟩ := ih (.propsItems rest
              (objInsert acc propName (.mk ((splitPop ((propDef.ref).getD "")).getD "object")
                none none))) vis
              (by simp only [deepWorkMeasure]; omega)
            refine ⟨r2, v2, ?_, hS2⟩
            rw [resolveObjectDeepF]
            simp only [h1, if_true, hl, heq2, Bool.false_eq_true, if_false]
        · cases hit : propDef.items with
          | some it =>
            by_cases h4 : propDef.type = some "array"
            · by_cases h5 : jsTruthy it.ref = true
              · cases hl : jsLookup all ((splitPop ((it.ref).getD "")).getD "object") with
                | some d' =>
                  by_cases h3 : (splitPop ((it.ref).getD "")).getD "object" ∉ vis
                  · have hdrop := schemasWeight_drop hl h3
                    obtain ⟨r1, v1, heq1, hS1⟩ := ih (.schema d')
                      (sadd vis ((splitPop ((it.ref).getD "")).getD "object"))
                      (by simp only [deepWorkMeasure]; omega)
                    obtain ⟨r2, v2, heq2, hS2⟩ := ih (.propsItems rest
                      (objInsert acc propName (.mk (((splitPop ((it.ref).getD "")).getD "object") ++ "[]")
                        (if r1.isEmpty then none else some r1) (some true)))) v1
                      (by simp only [deepWorkMeasure]; omega)
                    refine ⟨r2, v2, ?_, by omega⟩
                    rw [resolveObjectDeepF]
                    simp only [h1, hit, if_pos h4, h5, if_true, hl, if_pos h3, heq1, Option.some_bind, heq2, Bool.false_eq_true, if_false]
                  · obtain ⟨r2, v2, heq2, hS2⟩ := ih (.propsItems rest
                      (objInsert acc propName (.mk (((splitPop ((it.ref).getD "")).getD "object") ++ "[]")
                        none (some true)))) vis
                      (by simp only [deepWorkMeasure]; omega)
                    refine ⟨r2, v2, ?_, hS2⟩
                    rw [resolveObjectDeepF]
                    simp only [h1, hit, if_pos h4, h5, if_true, hl, if_neg h3, heq2, Bool.false_eq_true, if_false]
                | none =>
                  obtain ⟨r2, v2, heq2, hS2⟩ := ih (.propsItems rest
                    (objInsert acc propName (.mk (((splitPop ((it.ref).getD "")).getD "object") ++ "[]")
                      none (some true)))) vis
                    (by simp only [deepWorkMeasure]; omega)
                  refine ⟨r2, v2, ?_, hS2⟩
                  rw [resolveObjectDeepF]
                  simp only [h1, hit, if_pos h4, h5, if_true, hl, heq2, Bool.false_eq_true, if_false]
              · obtain ⟨r2, v2, heq2, hS2⟩ := ih (.propsItems rest
                  (objInsert acc propName (.mk (jsTypeOr it.type "any" ++ "[]") none (some true)))) vis
                  (by simp only [deepWorkMeasure]; omega)
                refine ⟨r2, v2, ?_, hS2⟩
                rw [resolveObjectDeepF]
                simp only [h1, hit, if_pos h4, h5, heq2, Bool.false_eq_true, if_false]
            · obtain ⟨r2, v2, heq2, hS2⟩ := ih (.propsItems rest
                (objInsert acc propName (deepSimpleField propDef))) vis
                (by simp only [deepWorkMeasure]; omega)
              refine ⟨r2, v2, ?_, hS2⟩
              rw [resolveObjectDeepF]
              simp only [h1, hit, if_neg h4, heq2, Bool.false_eq_true, if_false]
          | none =>
            obtain ⟨r2, v2, heq2, hS2⟩ := ih (.propsItems rest
              (objInsert acc propName (deepSimpleField propDef))) vis
              (by simp only [deepWorkMeasure]; omega)
            refine ⟨r2, v2, ?_, hS2⟩
            rw [resolveObjectDeepF]
            simp only [h1, hit, heq2, Bool.false_eq_true, if_false]

/-- Measure of remaining shallow-flattening work. -/
def simplifyWorkMeasure (w : SimplifyWork) (all : Schemas) (vis : List String) : Nat :=
  match w with
  | .schema d => ssize d + schemasWeight all vis
  | .allOfItems items _ => lsize items + schemasWeight all vis

/-- Fuel sufficiency for the shallow flattener. -/
theorem simplifySchemaF_suff (all : Schemas) :
    ∀ (fuel : Nat) (w : SimplifyWork) (vis : List String),
      simplifyWorkMeasure w all vis < fuel →
      ∃ r vis2, simplifySchemaF fuel w all vis = some (r, vis2) ∧
        schemasWeight all vis2 ≤ schemasWeight all vis := by
  intro fuel
  induction fuel with
  | zero => intro w vis h; exact absurd h (by omega)
  | succ f ih =>
    intro w vis hμ
    cases w with
    | schema d =>
      simp only [simplifyWorkMeasure] at hμ
      cases hao : d.allOf with
      | some items =>
        have hs := ssize_allOf hao
        obtain ⟨r, v2, heq, hS⟩ := ih (.allOfItems items []) vis
          (by simp only [simplifyWorkMeasure]; omega)
        exact ⟨r, v2, by rw [simplifySchemaF, hao]; exact heq, hS⟩
      | none =>
        exact ⟨simplifyProps ((d.properties).getD []) [], vis,
          by rw [simplifySchemaF, hao], le_refl _⟩
    | allOfItems items acc =>
      cases items with
      | nil => exact ⟨acc, vis, rfl, le_refl _⟩
      | cons item rest =>
        simp only [simplifyWorkMeasure] at hμ
        have hlc : lsize (item :: rest) = 1 + ssize item + lsize rest := rfl
        by_cases h1 : jsTruthy item.ref = true
        · by_cases h2 : splitSlashLast ((item.ref).getD "") ≠ ""
          · cases hl : jsLookup all (splitSlashLast ((item.ref).getD "")) with
            | some d' =>
              by_cases h3 : splitSlashLast ((item.ref).getD "") ∉ vis
              · have hdrop := schemasWeight_drop hl h3
                obtain ⟨r1, v1, heq1, hS1⟩ := ih (.schema d')
                  (sadd vis (splitSlashLast ((item.ref).getD "")))
                  (by simp only [simplifyWorkMeasure]; omega)
                obtain ⟨r2, v2, heq2, hS2⟩ := ih (.allOfItems rest (objAssign acc r1)) v1
                  (by simp only [simplifyWorkMeasure]; omega)
                refine ⟨r2, v2, ?_, by omega⟩
                rw [simplifySchemaF]
                simp only [h1, if_true, if_pos h2, hl, if_pos h3, heq1,
                  Option.some_bind, heq2]
              · obtain ⟨r2, v2, heq2, hS2⟩ := ih (.allOfItems rest acc) vis
                  (by simp only [simplifyWorkMeasure]; omega)
                refine ⟨r2, v2, ?_, hS2⟩
                rw [simplifySchemaF]
                simp only [h1, if_true, if_pos h2, hl, if_neg h3, heq2]
            | none =>
              obtain ⟨r2, v2, heq2, hS2⟩ := ih (.allOfItems rest acc) vis
                (by simp only [simplifyWorkMeasure]; omega)
              refine ⟨r2, v2, ?_, hS2⟩
              rw [simplifySchemaF]
              simp only [h1, if_true, if_pos h2, hl, heq2]
          · obtain ⟨r2, v2, heq2, hS2⟩ := ih (.allOfItems rest acc) vis
              (by simp only [simplifyWorkMeasure]; omega)
            refine ⟨r2, v2, ?_, hS2⟩
            rw [simplifySchemaF]
            simp only [h1, if_true, if_neg h2, heq2]
        · obtain ⟨r1, v1, heq1, hS1⟩ := ih (.schema item) vis
            (by simp only [simplifyWorkMeasure]; omega)
          obtain ⟨r2, v2, heq2, hS2⟩ := ih (.allOfItems rest (objAssign acc r1)) v1
            (by simp only [simplifyWorkMeasure]; omega)
          refine ⟨r2, v2, ?_, by omega⟩
          rw [simplifySchemaF]
          simp only [if_neg h1, heq1, Option.some_bind, heq2]

/-- The two mutually referential definitions `A { b: B }`, `B { a: A }`. -/
def cycleDefs : Schemas :=
  [("A", propsSchema [("b", refSchema "#/components/schemas/B")]),
   ("B", propsSchema [("a", refSchema "#/components/schemas/A")])]

/-- C3: the deep resolver and the shallow flattener are total on every finite
document — any fuel above the computed measure completes, which is exactly
the termination guarantee the cycle guards provide — and on the mutual cycle
`A { b: B }`, `B { a: A }` deep-resolving `A` terminates with the second
occurrence of `B` on that path rendered as a label-only leaf. -/
theorem C3_cycles_terminate (fuel : Nat) (w : DeepWork) (w' : SimplifyWork)
    (all : Schemas) (vis : List String)
    (hw : deepWorkMeasure w all vis < fuel)
    (hw' : simplifyWorkMeasure w' all vis < fuel) :
    (resolveObjectDeepF fuel w all vis).isSome = true ∧
    (simplifySchemaF fuel w' all vis).isSome = true ∧
    resolveSchemaDeep "A" cycleDefs =
      some [("b", .mk "B"
        (some [("a", .mk "A" (some [("b", .mk "B" none none)]) none)]) none)] := by
  refine ⟨?_, ?_, ?_⟩
  · obtain ⟨r, v2, heq, _⟩ := resolveObjectDeepF_suff all fuel w vis hw
    rw [heq]; rfl
  · obtain ⟨r, v2, heq, _⟩ := simplifySchemaF_suff all fuel w' vis hw'
    rw [heq]; rfl
  · have hf : guardedFuel (propsSchema [("b", refSchema "#/components/schemas/B")])
        cycleDefs [] = 15 := by
      simp [guardedFuel, schemasWeight, cycleDefs, propsSchema, refSchema,
        ssize, osize, prsize, psize, olsize, lsize]
    show some ((resolveObjectDeep (propsSchema [("b", refSchema "#/components/schemas/B")])
        cycleDefs []).1) = _
    unfold resolveObjectDeep
    rw [hf]
    rfl

/-- Witness for C3 at the concrete cyclic document. -/
theorem C3_cycles_terminate_witness :
    (deepWorkMeasure (.schema (propsSchema [("b", refSchema "#/components/schemas/B")]))
        cycleDefs [] < 15 ∧
      simplifyWorkMeasure (.schema (propsSchema [("b", refSchema "#/components/schemas/B")]))
        cycleDefs [] < 15) ∧
    ((resolveObjectDeepF 15 (.schema (propsSchema [("b", refSchema "#/components/schemas/B")]))
        cycleDefs []).isSome = true ∧
      (simplifySchemaF 15 (.schema (propsSchema [("b", refSchema "#/components/schemas/B")]))
        cycleDefs []).isSome = true ∧
      resolveSchemaDeep "A" cycleDefs =
        some [("b", .mk "B"
          (some [("a", .mk "A" (some [("b", .mk "B" none none)]) none)]) none)]) := by
  have hm : deepWorkMeasure (.schema (propsSchema [("b", refSchema "#/components/schemas/B")]))
      cycleDefs [] < 15 := by
    simp [deepWorkMeasure, schemasWeight, cycleDefs, propsSchema, refSchema,
      ssize, osize, prsize, psize, olsize, lsize]
  have hm' : simplifyWorkMeasure (.schema (propsSchema [("b", refSchema "#/components/schemas/B")]))
      cycleDefs [] < 15 := by
    simp [simplifyWorkMeasure, schemasWeight, cycleDefs, propsSchema, refSchema,
      ssize, osize, prsize, psize, olsize, lsize]
  exact ⟨⟨hm, hm'⟩, C3_cycles_terminate 15 _ _ cycleDefs [] hm hm'⟩

theorem objInsert_not_mem {α : Type} {m : List (String × α)} {k : String}
    (v : α) (h : k ∉ objKeys m) : objInsert m k v = m ++ [(k, v)] := by
  unfold objInsert
  rw [if_neg (fun hc => h ((objInsert_any_iff m k).mp hc))]

theorem objKeys_append {α : Type} (m m' : List (String × α)) :
    objKeys (m ++ m') = objKeys m ++ objKeys m' := by
  simp [objKeys]

theorem foldl_objInsert_eq_map {α : Type} (g : String × SchemaObject → α) :
    ∀ (l : List (String × SchemaObject)) (acc : List (String × α)),
      (∀ k ∈ objKeys l, k ∉ objKeys acc) → (objKeys l).Nodup →
      l.foldl (fun a p => objInsert a p.1 (g p)) acc =
        acc ++ l.map (fun p => (p.1, g p)) := by
  intro l
  induction l with
  | nil => intro acc _ _; simp
  | cons p rest ih =>
    intro acc hdisj hnodup
    rw [List.foldl_cons, List.map_cons]
    have hp : p.1 ∉ objKeys acc := hdisj p.1 (by simp [objKeys])
    rw [objInsert_not_mem (g p) hp]
    have hkeys : objKeys rest = List.map Prod.fst rest := rfl
    have hnodup' : (objKeys rest).Nodup := by
      have := hnodup
      simp only [objKeys, List.map_cons, List.nodup_cons] at this
      exact this.2
    have hhead : p.1 ∉ objKeys rest := by
      have := hnodup
      simp only [objKeys, List.map_cons, List.nodup_cons] at this
      exact this.1
    rw [ih (acc ++ [(p.1, g p)]) ?_ hnodup']
    · simp
    · intro k hk
      have h1 : k ∉ objKeys acc := hdisj k
        (by simp only [objKeys, List.map_cons, List.mem_cons]; exact Or.inr hk)
      have h2 : k ≠ p.1 := fun hc => hhead (hc ▸ hk)
      rw [objKeys_append]
      simp only [List.mem_append, objKeys, List.map_cons, List.map_nil,
        List.mem_cons, List.not_mem_nil, or_false]
      push_neg
      exact ⟨h1, h2⟩

/-- Basic properties (no reference, no items) are processed one fuel unit per
property and never touch the visited set. -/
theorem resolveObjectDeepF_basicProps (all : Schemas) :
    ∀ (props : List (String × SchemaObject)) (f : Nat)
      (acc : List (String × DeepSchemaField)) (vis : List String),
      (∀ p ∈ props, p.2.ref = none ∧ p.2.items = none) →
      resolveObjectDeepF (f + props.length + 1) (.propsItems props acc) all vis =
        some (props.foldl (fun a p => objInsert a p.1 (deepSimpleField p.2)) acc, vis) := by
  intro props
  induction props with
  | nil => intro f acc vis _; rfl
  | cons p rest ih =>
    intro f acc vis hbasic
    rcases p with ⟨pn, pd⟩
    obtain ⟨hr, hi⟩ := hbasic (pn, pd) (by simp)
    rw [List.length_cons, List.foldl_cons]
    have hstep : resolveObjectDeepF (f + (rest.length + 1) + 1)
        (.propsItems ((pn, pd) :: rest) acc) all vis =
        resolveObjectDeepF (f + rest.length + 1)
          (.propsItems rest (objInsert acc pn (deepSimpleField pd))) all vis := by
      show resolveObjectDeepF ((f + rest.length + 1) + 1)
        (.propsItems ((pn, pd) :: rest) acc) all vis = _
      rw [resolveObjectDeepF]
      simp only [hr, hi, jsTruthy, Bool.false_eq_true, if_false]
    rw [hstep, ih f (objInsert acc pn (deepSimpleField pd)) vis
      (fun q hq => hbasic q (by simp [hq]))]

/-- The two sibling-reference definitions used to refute per-path visited
scoping: `Root { x: B, y: B }`, `B { n: string }`. -/
def siblingDefs : Schemas :=
  [("Root", propsSchema [("x", refSchema "#/components/schemas/B"),
                         ("y", refSchema "#/components/schemas/B")]),
   ("B", propsSchema [("n", typeSchema "string")])]

/-- C2 counterexample: two sibling properties of `Root` reference the same
known definition `B`, yet only the first sibling is expanded into nested
fields — the second renders as a label-only leaf, because the visited set is
one shared mutable set, not per root-to-leaf path. -/
theorem C2_counterexample_sibling_not_expanded :
    resolveSchemaDeep "Root" siblingDefs =
      some [("x", .mk "B" (some [("n", .mk "string" none none)]) none),
            ("y", .mk "B" none none)] := by
  have hf : guardedFuel (propsSchema [("x", refSchema "#/components/schemas/B"),
      ("y", refSchema "#/components/schemas/B")]) siblingDefs [] = 19 := by
    simp [guardedFuel, schemasWeight, siblingDefs, propsSchema, refSchema,
      typeSchema, ssize, osize, prsize, psize, olsize, lsize]
  show some ((resolveObjectDeep (propsSchema [("x", refSchema "#/components/schemas/B"),
      ("y", refSchema "#/components/schemas/B")]) siblingDefs []).1) = _
  unfold resolveObjectDeep
  rw [hf]
  rfl

theorem psize_ge_length : ∀ l : List (String × SchemaObject), l.length ≤ psize l := by
  intro l
  induction l with
  | nil => simp [psize]
  | cons p rest ih =>
    have : psize (p :: rest) = 1 + ssize p.2 + psize rest := rfl
    simp only [List.length_cons]
    omega

theorem ssize_of_props_some {d : SchemaObject} {l : List (String × SchemaObject)}
    (h : d.properties = some l) : psize l + 2 ≤ ssize d := by
  rcases d with ⟨t, f, r, it, pr, en, ao, oo, an⟩
  simp only [SchemaObject.properties] at h
  subst h
  rw [ssize_mk]
  have : prsize (some l) = 1 + psize l := rfl
  omega

theorem schemasWeight_ge_of_lookup {all : Schemas} {n : String} {d : SchemaObject}
    (h : jsLookup all n = some d) :
    ssize d + 1 ≤ schemasWeight all [] := by
  have := schemasWeight_drop h (List.not_mem_nil n)
  omega

/-- C2 (amended): the `visited` set of the deep resolver is one shared,
mutated-in-place set for the whole call, not a per-path set: when two
sibling properties reference the same known definition, only the first (in
property order) is expanded into nested fields, and the second renders as a
label-only leaf; a reference already expanded earlier on the same path also
renders as a leaf. -/
theorem C2_amended_shared_visited_set (all : Schemas)
    (rootName px py Bref Bname : String) (Bdef : SchemaObject)
    (bprops : List (String × SchemaObject))
    (hroot : jsLookup all (replaceFirst rootName "[]" "") =
      some (propsSchema [(px, refSchema Bref), (py, refSchema Bref)]))
    (hBname : splitPop Bref = some Bname)
    (hB : jsLookup all Bname = some Bdef)
    (hBao : Bdef.allOf = none)
    (hBpr : Bdef.properties = some bprops)
    (hbasic : ∀ p ∈ bprops, p.2.ref = none ∧ p.2.items = none)
    (hne : bprops ≠ [])
    (hnodup : (objKeys bprops).Nodup)
    (hpxy : px ≠ py) :
    resolveSchemaDeep rootName all =
      some [(px, .mk Bname (some (bprops.map (fun p => (p.1, deepSimpleField p.2)))) none),
            (py, .mk Bname none none)] := by
  have hBne : Bref ≠ "" := by
    intro h
    rw [h, show splitPop "" = none from rfl] at hBname
    exact Option.noConfusion hBname
  have htr : jsTruthy (refSchema Bref).ref = true := by
    simp [refSchema, SchemaObject.ref, jsTruthy, hBne]
  have hrn : (splitPop (((refSchema Bref).ref).getD "")).getD "object" = Bname := by
    simp [refSchema, SchemaObject.ref, hBname]
  have hlen := psize_ge_length bprops
  have hBsize := ssize_of_props_some hBpr
  have hweight := schemasWeight_ge_of_lookup hB
  have hroot6 : ssize (propsSchema [(px, refSchema Bref), (py, refSchema Bref)]) = 6 := by
    simp [propsSchema, refSchema, ssize, osize, prsize, psize, olsize, lsize]
  have hN : bprops.length + 6 ≤ guardedFuel
      (propsSchema [(px, refSchema Bref), (py, refSchema Bref)]) all [] := by
    unfold guardedFuel
    omega
  obtain ⟨k, hk⟩ := Nat.exists_eq_add_of_le hN
  have hmap_ne : (bprops.map (fun p => (p.1, deepSimpleField p.2))).isEmpty = false := by
    cases bprops with
    | nil => exact absurd rfl hne
    | cons q qs => rfl
  have hBeval : resolveObjectDeepF (bprops.length + 4 + k) (.schema Bdef) all [Bname] =
      some (bprops.map (fun p => (p.1, deepSimpleField p.2)), [Bname]) := by
    rw [show bprops.length + 4 + k = (bprops.length + 3 + k) + 1 from by omega]
    rw [resolveObjectDeepF]
    rw [hBao]
    simp only [hBpr, Option.getD]
    rw [show bprops.length + 3 + k = (k + 2) + bprops.length + 1 from by omega]
    rw [resolveObjectDeepF_basicProps all bprops (k + 2) [] [Bname] hbasic]
    rw [foldl_objInsert_eq_map (fun p => deepSimpleField p.2) bprops []
      (fun x _ hc => by simp [objKeys] at hc) hnodup]
    simp
  have hEval : resolveObjectDeepF
      (guardedFuel (propsSchema [(px, refSchema Bref), (py, refSchema Bref)]) all [])
      (.schema (propsSchema [(px, refSchema Bref), (py, refSchema Bref)])) all [] =
      some ([(px, .mk Bname (some (bprops.map (fun p => (p.1, deepSimpleField p.2)))) none),
             (py, .mk Bname none none)], [Bname]) := by
    rw [hk]
    rw [show bprops.length + 6 + k = (bprops.length + 5 + k) + 1 from by omega]
    rw [resolveObjectDeepF]
    simp only [propsSchema, SchemaObject.allOf, SchemaObject.properties, Option.getD]
    rw [show bprops.length + 5 + k = (bprops.length + 4 + k) + 1 from by omega]
    rw [resolveObjectDeepF]
    simp only [htr, if_true, hrn, hB, List.not_mem_nil, not_false_iff, if_true,
      sadd, if_false, List.nil_append]
    rw [hBeval, Option.some_bind]
    simp only [hmap_ne, Bool.false_eq_true, if_false]
    rw [show bprops.length + 4 + k = (bprops.length + 3 + k) + 1 from by omega]
    rw [resolveObjectDeepF]
    simp only [htr, if_true, hrn, hB]
    rw [if_neg (by simp)]
    rw [show bprops.length + 3 + k = (bprops.length + 2 + k) + 1 from by omega]
    rw [resolveObjectDeepF]
    have hins1 : objInsert ([] : List (String × DeepSchemaField)) px
        (.mk Bname (some (bprops.map (fun p => (p.1, deepSimpleField p.2)))) none) =
        [(px, .mk Bname (some (bprops.map (fun p => (p.1, deepSimpleField p.2)))) none)] := by
      rw [objInsert_not_mem _ (by simp [objKeys])]
      rfl
    rw [hins1, objInsert_not_mem _ (by simp [objKeys, hpxy]; exact fun hc => hpxy hc.symm)]
    rfl
  simp only [resolveSchemaDeep]
  rw [hroot]
  show some ((resolveObjectDeep (propsSchema [(px, refSchema Bref), (py, refSchema Bref)])
      all []).1) = _
  unfold resolveObjectDeep
  rw [hEval]

/-- Witness for C2 at the concrete sibling document. -/
theorem C2_amended_shared_visited_set_witness :
    (jsLookup siblingDefs (replaceFirst "Root" "[]" "") =
      some (propsSchema [("x", refSchema "#/components/schemas/B"),
                         ("y", refSchema "#/components/schemas/B")])) ∧
    resolveSchemaDeep "Root" siblingDefs =
      some [("x", .mk "B" (some ([("n", typeSchema "string")].map
              (fun p => (p.1, deepSimpleField p.2)))) none),
            ("y", .mk "B" none none)] :=
  ⟨rfl, C2_amended_shared_visited_set siblingDefs "Root" "x" "y"
    "#/components/schemas/B" "B" (propsSchema [("n", typeSchema "string")])
    [("n", typeSchema "string")] rfl rfl rfl rfl rfl
    (by rintro p hp; rcases List.mem_singleton.mp hp with rfl; exact ⟨rfl, rfl⟩)
    (by simp) (by simp [objKeys]) (by decide)⟩

/-- C8: dangling references never fail — `resolveSchemaDeep` returns `null`
exactly when the root name itself (after stripping `[]`) has no definition;
a property whose reference names an undefined schema becomes a label-only
leaf in deep resolution (processing simply continues on the remaining
properties); and the shallow flattener labels a reference property with the
referenced name without ever consulting the definition table. -/
theorem C8_dangling_refs_permissive (name : String) (all : Schemas)
    (fuel : Nat) (vis : List String) (acc : List (String × DeepSchemaField))
    (rest : List (String × SchemaObject)) (propName : String)
    (propDef : SchemaObject) (h1 : jsTruthy propDef.ref = true)
    (hdangling : jsLookup all ((splitPop ((propDef.ref).getD "")).getD "object") = none) :
    ((resolveSchemaDeep name all = none) ↔
      jsLookup all (replaceFirst name "[]" "") = none) ∧
    (resolveObjectDeepF (fuel + 1) (.propsItems ((propName, propDef) :: rest) acc) all vis =
      resolveObjectDeepF fuel (.propsItems rest (objInsert acc propName
        (.mk ((splitPop ((propDef.ref).getD "")).getD "object") none none))) all vis) ∧
    (simplifyProp propDef = (splitPop ((propDef.ref).getD "")).getD "object") := by
  refine ⟨?_, ?_, ?_⟩
  · simp only [resolveSchemaDeep]
    cases h : jsLookup all (replaceFirst name "[]" "") with
    | none => simp
    | some d => simp
  · rw [resolveObjectDeepF]
    simp only [h1, if_true, hdangling]
  · unfold simplifyProp
    rw [if_pos h1]

/-- Witness for C8 at a concrete dangling reference. -/
theorem C8_dangling_refs_permissive_witness :
    (jsTruthy (refSchema "#/components/schemas/Missing").ref = true ∧
      jsLookup ([] : Schemas)
        ((splitPop (((refSchema "#/components/schemas/Missing").ref).getD "")).getD "object") = none) ∧
    (((resolveSchemaDeep "Ghost[]" [] = none) ↔
        jsLookup ([] : Schemas) (replaceFirst "Ghost[]" "[]" "") = none) ∧
      (resolveObjectDeepF (5 + 1)
          (.propsItems [("p", refSchema "#/components/schemas/Missing")] []) [] [] =
        resolveObjectDeepF 5 (.propsItems [] (objInsert [] "p"
          (.mk ((splitPop (((refSchema "#/components/schemas/Missing").ref).getD "")).getD "object")
            none none))) [] []) ∧
      (simplifyProp (refSchema "#/components/schemas/Missing") =
        (splitPop (((refSchema "#/components/schemas/Missing").ref).getD "")).getD "object")) :=
  ⟨⟨rfl, rfl⟩, C8_dangling_refs_permissive "Ghost[]" [] 5 [] [] [] "p"
    (refSchema "#/components/schemas/Missing") rfl rfl⟩


end SwaggerExtractor
